import Mathlib

/-!
# ASCIIequipotential: charged particles on a periodic domain

A shallow embedding of `Source.cpp` (force law, integrator, boundary handler,
field sampler) together with theorems about it.

Modelling conventions

* `float` values are elements of a linearly ordered field `F` with exact
  arithmetic; `sqrtf` is passed to the functions that call it.  The theorems
  instantiate `F` with the real numbers and `sqrtf` with `Real.sqrt`.
* A division (or an integer `%`) by zero and a square root of a negative number
  are errors, and so is a `std::vector` access outside the vector: every
  function of the source that divides or indexes returns an `Except Err`.
* `std::vector<T>` is `List T`; `int` is `Int`, without a bound on its range; a loop
  counter that starts at a non-negative value and counts upwards is a `Nat`.
* A `for` loop is `forRange lo hi body`, which threads the mutated state through
  the iterations `lo, lo + 1, …, hi - 1`.
-/

namespace ASCIIequipotential

/-! ## Errors, guarded arithmetic, vectors, loops -/

/-- Ways in which a run of the source can go wrong. -/
inductive Err where
  | divByZero
  | sqrtDomain
  | outOfBounds
  deriving DecidableEq, Repr

section Defs

variable {F : Type} [LinearOrderedField F]

/-- Division `a / b`, an error when the divisor is zero. -/
def fdiv (a b : F) : Except Err F :=
  if b = 0 then .error .divByZero else .ok (a / b)

/-- Call of `sqrtf`, an error on a negative argument. -/
def fsqrt (sqrtf : F → F) (a : F) : Except Err F :=
  if a < 0 then .error .sqrtDomain else .ok (sqrtf a)

/-- C++ `a % b` on `int` (truncated remainder), an error when `b` is zero. -/
def imod (a b : Int) : Except Err Int :=
  if b = 0 then .error .divByZero else .ok (a.tmod b)

/-- Read `xs[i]` of a vector. -/
def vget {α : Type} (xs : List α) (i : Nat) : Except Err α :=
  match xs[i]? with
  | some a => .ok a
  | none => .error .outOfBounds

/-- Write `xs[i] = a` of a vector. -/
def vset {α : Type} (xs : List α) (i : Nat) (a : α) : Except Err (List α) :=
  if i < xs.length then .ok (xs.set i a) else .error .outOfBounds

/-- Conversion of an `int` index to a vector index; a negative index is outside
every vector. -/
def toIndex (k : Int) : Except Err Nat :=
  if 0 ≤ k then .ok k.toNat else .error .outOfBounds

/-- Run `body lo`, `body (lo + 1)`, … for `cnt` iterations, threading the state. -/
def forLoop {σ : Type} (body : Nat → σ → Except Err σ) : Nat → Nat → σ → Except Err σ
  | _, 0, s => .ok s
  | lo, cnt + 1, s => body lo s >>= forLoop body (lo + 1) cnt

/-- The loop `for (int i = lo; i < hi; i++) body`. -/
def forRange {σ : Type} (lo hi : Nat) (body : Nat → σ → Except Err σ) (s : σ) :
    Except Err σ :=
  forLoop body lo (hi - lo) s

/-! ## Data model -/

/-- The `struct vec2`. -/
structure vec2 (F : Type) where
  m_x : F
  m_y : F
  deriving DecidableEq, Repr

/-- The `struct Force`. -/
structure Force (F : Type) where
  m_x : F
  m_y : F
  deriving DecidableEq, Repr

/-- The `struct ParticleSystem`: four parallel vectors. -/
structure ParticleSystem (F : Type) where
  m_aPositions : List (vec2 F)
  m_aVelocities : List (vec2 F)
  m_aCharges : List F
  m_aMasses : List F
  deriving Repr

/-- The method `ParticleSystem::addParticle`. -/
def ParticleSystem.addParticle (self : ParticleSystem F) (pos : vec2 F) (mass charge : F) :
    ParticleSystem F :=
  { m_aPositions := self.m_aPositions ++ [pos]
    m_aVelocities := self.m_aVelocities ++ [⟨0.0, 0.0⟩]
    m_aCharges := self.m_aCharges ++ [charge]
    m_aMasses := self.m_aMasses ++ [mass] }

/-- The invariant of the particle store: the four vectors have the same length. -/
def ParticleSystem.sameLength (ps : ParticleSystem F) : Prop :=
  ps.m_aVelocities.length = ps.m_aPositions.length ∧
    ps.m_aCharges.length = ps.m_aPositions.length ∧
    ps.m_aMasses.length = ps.m_aPositions.length

instance (ps : ParticleSystem F) : Decidable ps.sameLength := by
  unfold ParticleSystem.sameLength
  infer_instance

/-- The start-up loop of `main` (source lines 269 to 274) for the particle count `N`
and the charge magnitude `charge` of the command line: particle `i` is added at the
point `points i` (the value of the `i`-th call of `genRandomPoint`, which is not
modelled) with mass 1 and with charge `charge` times 1 or -1. -/
def mainPopulate (N : Int) (charge : F) (points : Nat → vec2 F) : ParticleSystem F :=
  (List.range N.toNat).foldl (fun parSys i =>
    parSys.addParticle (points i) 1.0 (charge * (if (i : Int) > N.tdiv 2 then 1.0 else -1.0)))
    ⟨[], [], [], []⟩

/-- A result without an arithmetic error: a value, or an access outside a vector
(used in proofs). -/
def ArithOk {α : Type} (r : Except Err α) : Prop :=
  ∀ e, r = .error e → e = .outOfBounds

/-- The `struct World` (the random generators are not modelled). -/
structure World where
  m_width : Int
  m_height : Int
  deriving DecidableEq, Repr

/-- The type `cell` (`unsigned char`). -/
abbrev cell := Char

/-- The table `offsets` of `iter` and of `fillCells` (the two tables are equal). -/
def offsets : List (Int × Int) :=
  [(1, 0), (1, 1), (0, 1), (-1, 1), (-1, 0), (-1, -1), (0, -1), (1, -1)]

/-! ## Force and potential -/

/-- The function `getForce`. -/
def getForce (sqrtf : F → F) (pos1 : vec2 F) (charge1 : F) (pos2 : vec2 F) (charge2 : F) :
    Except Err (Force F) := do
  let dx := pos1.m_x - pos2.m_x
  let dy := pos1.m_y - pos2.m_y
  let dist2 := dx * dx + dy * dy
  let EPS : F := 1.0
  let dist2 := dist2 + EPS
  let dist ← fsqrt sqrtf dist2
  let chargeMul := charge1 * charge2
  let force ← fdiv chargeMul dist2
  let qx ← fdiv (dx * (dist - 10.0)) dist2
  let force_x := qx * force
  let qy ← fdiv (dy * (dist - 10.0)) dist2
  let force_y := qy * force
  pure ⟨force_x, force_y⟩

/-- Closed form of the value that `getForce` returns when none of its guarded
operations fails (used in proofs). -/
def forceVal (sqrtf : F → F) (pos1 : vec2 F) (charge1 : F) (pos2 : vec2 F) (charge2 : F) :
    Force F :=
  let dx := pos1.m_x - pos2.m_x
  let dy := pos1.m_y - pos2.m_y
  let dist2 := dx * dx + dy * dy + 1
  ⟨dx * (sqrtf dist2 - 10) / dist2 * (charge1 * charge2 / dist2),
   dy * (sqrtf dist2 - 10) / dist2 * (charge1 * charge2 / dist2)⟩

/-- One component of `forceVal` as a function of the separation along that axis
(`d`), the separation along the other axis (`e`) and the product of the charges
(used in proofs). -/
def forceK (sqrtf : F → F) (d e c : F) : F :=
  d * (sqrtf (d * d + e * e + 1) - 10) / (d * d + e * e + 1) * (c / (d * d + e * e + 1))

/-- The function `getPotential`. -/
def getPotential (sqrtf : F → F) (pos parPos : vec2 F) (charge : F) : Except Err F := do
  let dx := parPos.m_x - pos.m_x
  let dy := parPos.m_y - pos.m_y
  let dist2 := dx * dx + dy * dy
  let EPS : F := 1.0e-6
  let root ← fsqrt sqrtf dist2
  let dist := root + EPS
  fdiv charge dist

/-- Closed form of the value that `getPotential` returns when none of its guarded
operations fails (used in proofs). -/
def potentialVal (sqrtf : F → F) (pos parPos : vec2 F) (charge : F) : F :=
  let dx := parPos.m_x - pos.m_x
  let dy := parPos.m_y - pos.m_y
  charge / (sqrtf (dx * dx + dy * dy) + 1.0e-6)

/-! ## Integrator -/

/-- Body of the pair loop of `iter` (source lines 93 to 98): the force between
the particles `i` and `j`, added to `aForces[i]` and subtracted from `aForces[j]`. -/
def iterPairBody (sqrtf : F → F) (parSys : ParticleSystem F) (par1 : vec2 F) (i j : Nat)
    (aForces : List (Force F)) : Except Err (List (Force F)) := do
  let par2 ← vget parSys.m_aPositions j
  let ci ← vget parSys.m_aCharges i
  let cj ← vget parSys.m_aCharges j
  let force ← getForce sqrtf par1 ci par2 cj
  let fi ← vget aForces i
  let aForces ← vset aForces i ⟨fi.m_x + force.m_x, fi.m_y + force.m_y⟩
  let fj ← vget aForces j
  vset aForces j ⟨fj.m_x + -force.m_x, fj.m_y + -force.m_y⟩

/-- Body of the image loop of `iter` (source lines 106 to 111): the force of the
image of particle `j` shifted by `offsets[offsetId]`, added to `aForces[i]`. -/
def iterImageBody (sqrtf : F → F) (parSys : ParticleSystem F) (world : World) (par1 : vec2 F)
    (i offsetId j : Nat) (aForces : List (Force F)) : Except Err (List (Force F)) := do
  let par2 ← vget parSys.m_aPositions j
  let off ← vget offsets offsetId
  let par2 : vec2 F :=
    ⟨par2.m_x + ((off.1 * world.m_width : Int) : F),
     par2.m_y + ((off.2 * world.m_height : Int) : F)⟩
  let ci ← vget parSys.m_aCharges i
  let cj ← vget parSys.m_aCharges j
  let force ← getForce sqrtf par1 ci par2 cj
  let fi ← vget aForces i
  vset aForces i ⟨fi.m_x + force.m_x, fi.m_y + force.m_y⟩

/-- The force accumulation of `iter` (source lines 85 to 114): the vector
`aForces` after the outer loop. -/
def iterForces (sqrtf : F → F) (parSys : ParticleSystem F) (world : World) :
    Except Err (List (Force F)) :=
  let aPos := parSys.m_aPositions
  let aForces : List (Force F) := List.replicate aPos.length ⟨0.0, 0.0⟩
  forRange 0 aPos.length (fun i aForces => do
    let par1 ← vget aPos i
    let aForces ← forRange (i + 1) aPos.length (iterPairBody sqrtf parSys par1 i) aForces
    forRange 0 8 (fun offsetId aForces =>
      forRange 0 aPos.length (iterImageBody sqrtf parSys world par1 i offsetId) aForces)
      aForces) aForces

/-- Components of `aForces[t]` as a pair, zero outside the vector (used in proofs). -/
def forceAt (aForces : List (Force F)) (t : Nat) : F × F :=
  match aForces[t]? with
  | some f => (f.m_x, f.m_y)
  | none => (0, 0)

/-- Position of particle `j` (the origin when there is no particle `j`). -/
def ParticleSystem.posAt (ps : ParticleSystem F) (j : Nat) : vec2 F :=
  ps.m_aPositions.getD j ⟨0, 0⟩

/-- Velocity of particle `j` (zero when there is no particle `j`). -/
def ParticleSystem.velAt (ps : ParticleSystem F) (j : Nat) : vec2 F :=
  ps.m_aVelocities.getD j ⟨0, 0⟩

/-- Charge of particle `j` (zero when there is no particle `j`). -/
def ParticleSystem.chargeAt (ps : ParticleSystem F) (j : Nat) : F :=
  ps.m_aCharges.getD j 0

/-- Mass of particle `j` (zero when there is no particle `j`). -/
def ParticleSystem.massAt (ps : ParticleSystem F) (j : Nat) : F :=
  ps.m_aMasses.getD j 0

/-- The periodic image of the point `p` shifted by `o.1` world widths and `o.2`
world heights, as `iter` and `fillCells` compute it. -/
def image (world : World) (o : Int × Int) (p : vec2 F) : vec2 F :=
  ⟨p.m_x + ((o.1 * world.m_width : Int) : F), p.m_y + ((o.2 * world.m_height : Int) : F)⟩

/-- Components of the force on particle `i` due to particle `j` (used in proofs). -/
def pairForce (sqrtf : F → F) (ps : ParticleSystem F) (i j : Nat) : F × F :=
  let f := forceVal sqrtf (ps.posAt i) (ps.chargeAt i) (ps.posAt j) (ps.chargeAt j)
  (f.m_x, f.m_y)

/-- Components of the force on particle `i` due to the image of particle `j` shifted by
the entry `o` of the table `offsets` (used in proofs). -/
def imageForce (sqrtf : F → F) (ps : ParticleSystem F) (world : World) (i o j : Nat) : F × F :=
  let f := forceVal sqrtf (ps.posAt i) (ps.chargeAt i)
    (image world (offsets.getD o (0, 0)) (ps.posAt j)) (ps.chargeAt j)
  (f.m_x, f.m_y)

/-- Components of the net force on particle `t`: the forces due to the other
particles, plus the forces due to the images of all particles shifted by each of the
eight entries of `offsets` (used in proofs). -/
def netForce (sqrtf : F → F) (ps : ParticleSystem F) (world : World) (t : Nat) : F × F :=
  (∑ j in (Finset.range ps.m_aPositions.length).erase t, pairForce sqrtf ps t j) +
    ∑ o in Finset.range 8, ∑ j in Finset.range ps.m_aPositions.length,
      imageForce sqrtf ps world t o j

/-- The update loop of `iter` (source lines 115 to 121). -/
def iterUpdate (aForces : List (Force F)) (parSys : ParticleSystem F) (dt : F) :
    Except Err (ParticleSystem F) :=
  forRange 0 parSys.m_aPositions.length (fun i parSys => do
    let f ← vget aForces i
    let m ← vget parSys.m_aMasses i
    let v ← vget parSys.m_aVelocities i
    let ax ← fdiv f.m_x m
    let ay ← fdiv f.m_y m
    let v : vec2 F := ⟨v.m_x + ax * dt, v.m_y + ay * dt⟩
    let aVel ← vset parSys.m_aVelocities i v
    let p ← vget parSys.m_aPositions i
    let aPos ← vset parSys.m_aPositions i ⟨p.m_x + v.m_x * dt, p.m_y + v.m_y * dt⟩
    pure { parSys with m_aPositions := aPos, m_aVelocities := aVel }) parSys

/-- The function `iter`: force accumulation, then the velocity and position update. -/
def iter (sqrtf : F → F) (parSys : ParticleSystem F) (world : World) (dt : F) :
    Except Err (ParticleSystem F) := do
  let aForces ← iterForces sqrtf parSys world
  iterUpdate aForces parSys dt

/-- The two-particle scenario of the specification: particles at `(40, 50)` and
`(60, 50)`, at rest, both of charge 5 and mass 1. -/
def symmetricPair : ParticleSystem F :=
  { m_aPositions := [⟨40, 50⟩, ⟨60, 50⟩]
    m_aVelocities := [⟨0, 0⟩, ⟨0, 0⟩]
    m_aCharges := [5, 5]
    m_aMasses := [1, 1] }

/-! ## Boundary handler -/

/-- The function `regularize`. -/
def regularize (parSys : ParticleSystem F) (world : World) : Except Err (ParticleSystem F) :=
  forRange 0 parSys.m_aPositions.length (fun i parSys => do
    let p ← vget parSys.m_aPositions i
    let x := p.m_x
    let x := if x < 0.0 then x + ((world.m_width - 1 : Int) : F) else x
    let x := if x > ((world.m_width - 1 : Int) : F) then x - ((world.m_width - 1 : Int) : F) else x
    let y := p.m_y
    let y := if y < 0.0 then y + ((world.m_height - 1 : Int) : F) else y
    let y := if y > ((world.m_height - 1 : Int) : F) then y - ((world.m_height - 1 : Int) : F) else y
    let aPos ← vset parSys.m_aPositions i ⟨x, y⟩
    let v ← vget parSys.m_aVelocities i
    let aVel ← vset parSys.m_aVelocities i ⟨v.m_x * 0.99, v.m_y * 0.99⟩
    pure { parSys with m_aPositions := aPos, m_aVelocities := aVel }) parSys

/-- One coordinate after the two successive corrections that `regularize` applies
on an axis of extent `n` (used in proofs). -/
def wrapCoord (x : F) (n : Int) : F :=
  let x := if x < 0.0 then x + ((n - 1 : Int) : F) else x
  if x > ((n - 1 : Int) : F) then x - ((n - 1 : Int) : F) else x

/-! ## Field sampler -/

/-- The macro `fcellAt(i, j)`, read access. -/
def fcellAt (aFloatCells : List F) (width height : Int) (i j : Int) : Except Err F := do
  let r ← imod (i + height) height
  let c ← imod (j + width) width
  let k ← toIndex (r * width + c)
  vget aFloatCells k

/-- Value of the potential grid at the toroidal cell `(r mod height, c mod width)`
(zero when the grid is too short to hold that cell). -/
def potAt (aFloatCells : List F) (world : World) (r c : Int) : F :=
  aFloatCells.getD ((r % world.m_height) * world.m_width + (c % world.m_width)).toNat 0

/-- The value accumulated in `cell` for row `i`, column `j` in the first pass of
`fillCells` (source lines 168 to 187). -/
def cellPotential (sqrtf : F → F) (world : World) (parSys : ParticleSystem F) (i j : Nat) :
    Except Err F := do
  let aPos := parSys.m_aPositions
  let aCharges := parSys.m_aCharges
  let cell : F := 0.0
  let cellPos : vec2 F := ⟨(((j : Int) : F)) + 0.5, (((i : Int) : F)) + 0.5⟩
  let cell ← forRange 0 aPos.length (fun parId cell => do
    let pos ← vget aPos parId
    let charge ← vget aCharges parId
    let v ← getPotential sqrtf cellPos pos charge
    pure (cell + v)) cell
  forRange 0 8 (fun offsetId cell =>
    forRange 0 aPos.length (fun parId cell => do
      let pos ← vget aPos parId
      let off ← vget offsets offsetId
      let pos : vec2 F :=
        ⟨pos.m_x + ((off.1 * world.m_width : Int) : F),
         pos.m_y + ((off.2 * world.m_height : Int) : F)⟩
      let charge ← vget aCharges parId
      let v ← getPotential sqrtf cellPos pos charge
      pure (cell + v)) cell) cell

/-- First pass of `fillCells` (source lines 159 to 189): the vector
`aFloatCells` of sampled potentials. -/
def fillCellsPotential (sqrtf : F → F) (aCells : List cell) (world : World)
    (parSys : ParticleSystem F) : Except Err (List F) :=
  let width := world.m_width
  let height := world.m_height
  let aFloatCells : List F := List.replicate aCells.length 0
  forRange 0 height.toNat (fun i aFloatCells =>
    forRange 0 width.toNat (fun j aFloatCells => do
      let k ← toIndex ((i : Int) * width + (j : Int))
      let _ ← vget aFloatCells k
      let cell ← cellPotential sqrtf world parSys i j
      vset aFloatCells k cell) aFloatCells) aFloatCells

/-- Second pass of `fillCells` (source lines 191 to 220): the boundary between
positive and negative potential. -/
def fillCellsBoundary (aFloatCells : List F) (aCells : List cell) (world : World) :
    Except Err (List cell) :=
  let width := world.m_width
  let height := world.m_height
  forRange 0 height.toNat (fun i aCells =>
    forRange 0 width.toNat (fun j aCells => do
      let c : cell := ' '
      let val0 ← fcellAt aFloatCells width height ((i : Int) - 1) j
      let val1 ← fcellAt aFloatCells width height ((i : Int) + 1) j
      let val2 ← fcellAt aFloatCells width height i ((j : Int) - 1)
      let val3 ← fcellAt aFloatCells width height i ((j : Int) + 1)
      let self ← fcellAt aFloatCells width height i j
      let c : cell :=
        if (self * val0 < 0.0 ∧ |self| < |val0|)
            ∨ (self * val1 < 0.0 ∧ |self| < |val1|)
            ∨ (self * val2 < 0.0 ∧ |self| < |val2|)
            ∨ (self * val3 < 0.0 ∧ |self| < |val3|)
        then '#' else c
      let k ← toIndex ((i : Int) * width + (j : Int))
      vset aCells k c) aCells) aCells

/-- The function `fillCells`. -/
def fillCells (sqrtf : F → F) (aCells : List cell) (world : World) (parSys : ParticleSystem F) :
    Except Err (List cell) := do
  let aFloatCells ← fillCellsPotential sqrtf aCells world parSys
  fillCellsBoundary aFloatCells aCells world

end Defs


/-! ## Basic facts about the guarded operations -/

section Basic

variable {F : Type} [LinearOrderedField F]

@[simp] theorem ok_bind {α β : Type} (a : α) (f : α → Except Err β) :
    (Except.ok a >>= f) = f a := rfl

@[simp] theorem error_bind {α β : Type} (e : Err) (f : α → Except Err β) :
    ((Except.error e : Except Err α) >>= f) = Except.error e := rfl

@[simp] theorem pure_eq_ok {α : Type} (a : α) : (pure a : Except Err α) = Except.ok a := rfl

theorem fdiv_ok {a b : F} (h : b ≠ 0) : fdiv a b = .ok (a / b) := by
  simp [fdiv, h]

theorem fsqrt_ok (sqrtf : F → F) {a : F} (h : 0 ≤ a) : fsqrt sqrtf a = .ok (sqrtf a) := by
  simp [fsqrt, not_lt.mpr h]

theorem imod_ok {a b : Int} (h : b ≠ 0) : imod a b = .ok (a.tmod b) := by
  simp [imod, h]

theorem vget_ok {α : Type} {xs : List α} {i : Nat} {a : α} (h : xs[i]? = some a) :
    vget xs i = .ok a := by
  simp [vget, h]

theorem vset_ok {α : Type} {xs : List α} {i : Nat} (a : α) (h : i < xs.length) :
    vset xs i a = .ok (xs.set i a) := by
  simp [vset, h]

theorem toIndex_ok {k : Int} (h : 0 ≤ k) : toIndex k = .ok k.toNat := by
  simp [toIndex, h]

end Basic

/-! ## The force law -/

theorem dist2_pos (dx dy : ℝ) : 0 < dx * dx + dy * dy + 1 := by nlinarith [mul_self_nonneg dx, mul_self_nonneg dy]

theorem getForce_eq (pos1 : vec2 ℝ) (charge1 : ℝ) (pos2 : vec2 ℝ) (charge2 : ℝ) :
    getForce Real.sqrt pos1 charge1 pos2 charge2 = .ok (forceVal Real.sqrt pos1 charge1 pos2 charge2) := by
  have h := dist2_pos (pos1.m_x - pos2.m_x) (pos1.m_y - pos2.m_y)
  have e1 : (1.0 : ℝ) = 1 := by norm_num
  have e10 : (10.0 : ℝ) = 10 := by norm_num
  simp only [getForce, forceVal, e1, e10, fsqrt_ok Real.sqrt h.le, fdiv_ok h.ne', ok_bind, pure_eq_ok]


/-! ## Loop rules -/

theorem forLoop_inv {σ : Type} (body : Nat → σ → Except Err σ) (P : Nat → σ → Prop) :
    ∀ (cnt lo : Nat) (s : σ), P lo s →
      (∀ i s, lo ≤ i → i < lo + cnt → P i s → ∃ s', body i s = .ok s' ∧ P (i + 1) s') →
      ∃ s', forLoop body lo cnt s = .ok s' ∧ P (lo + cnt) s' := by
  intro cnt
  induction cnt with
  | zero => intro lo s h0 _; exact ⟨s, rfl, by simpa using h0⟩
  | succ cnt ih =>
    intro lo s h0 hstep
    obtain ⟨s1, hb, h1⟩ := hstep lo s le_rfl (by omega) h0
    obtain ⟨s2, hl, h2⟩ := ih (lo + 1) s1 h1 (fun i t hi hlt hP => hstep i t (by omega) (by omega) hP)
    refine ⟨s2, ?_, ?_⟩
    · simp only [forLoop, hb, ok_bind, hl]
    · have e : lo + (cnt + 1) = lo + 1 + cnt := by omega
      rw [e]; exact h2

theorem forRange_inv {σ : Type} (body : Nat → σ → Except Err σ) (P : Nat → σ → Prop)
    {lo hi : Nat} (hle : lo ≤ hi) (s : σ) (h0 : P lo s)
    (hstep : ∀ i s, lo ≤ i → i < hi → P i s → ∃ s', body i s = .ok s' ∧ P (i + 1) s') :
    ∃ s', forRange lo hi body s = .ok s' ∧ P hi s' := by
  obtain ⟨s', h1, h2⟩ := forLoop_inv body P (hi - lo) lo s h0
    (fun i t hi1 hi2 hP => hstep i t hi1 (by omega) hP)
  refine ⟨s', h1, ?_⟩
  have e : lo + (hi - lo) = hi := by omega
  rw [e] at h2; exact h2

theorem forRange_empty {σ : Type} (body : Nat → σ → Except Err σ) {lo hi : Nat} (h : hi ≤ lo)
    (s : σ) : forRange lo hi body s = .ok s := by
  have e : hi - lo = 0 := by omega
  simp [forRange, e, forLoop]

/-- A loop whose every iteration adds `δ j t` to the observable `X · t` of the
state adds the sum of the `δ j t` over the iterations. -/
theorem forRange_accum {σ ι M : Type} [AddCommMonoid M] (I : σ → Prop) (X : σ → ι → M)
    (body : Nat → σ → Except Err σ) (δ : Nat → ι → M) (lo hi : Nat)
    (hstep : ∀ j s, lo ≤ j → j < hi → I s →
      ∃ s', body j s = .ok s' ∧ I s' ∧ ∀ t, X s' t = X s t + δ j t)
    (s : σ) (hs : I s) :
    ∃ s', forRange lo hi body s = .ok s' ∧ I s' ∧
      ∀ t, X s' t = X s t + ∑ j in Finset.Ico lo hi, δ j t := by
  rcases Nat.lt_or_ge hi lo with h | h
  · refine ⟨s, forRange_empty body h.le s, hs, fun t => ?_⟩
    simp [Finset.Ico_eq_empty_of_le h.le]
  · obtain ⟨s', h1, h2, h3⟩ := forRange_inv body
      (fun k u => I u ∧ ∀ t, X u t = X s t + ∑ j in Finset.Ico lo k, δ j t) h s
      ⟨hs, fun t => by simp⟩
      (fun i u hi1 hi2 hP => by
        obtain ⟨u', hb, hI, hX⟩ := hstep i u hi1 hi2 hP.1
        refine ⟨u', hb, hI, fun t => ?_⟩
        rw [hX t, hP.2 t, Finset.sum_Ico_succ_top hi1, add_assoc])
    exact ⟨s', h1, h2, h3⟩


/-- A loop over the particles whose iteration `i` rewrites position `i` and
velocity `i` only, and leaves charges and masses alone. -/
theorem forRange_particles {F : Type} (gp : Nat → vec2 F → vec2 F → vec2 F)
    (gv : Nat → vec2 F → vec2 F) (body : Nat → ParticleSystem F → Except Err (ParticleSystem F))
    (ps : ParticleSystem F) (hlen : ps.m_aVelocities.length = ps.m_aPositions.length)
    (hbody : ∀ i s p v, i < ps.m_aPositions.length → s.m_aPositions[i]? = some p →
      s.m_aVelocities[i]? = some v → s.m_aCharges = ps.m_aCharges → s.m_aMasses = ps.m_aMasses →
      body i s = .ok { s with m_aPositions := s.m_aPositions.set i (gp i p v),
                              m_aVelocities := s.m_aVelocities.set i (gv i v) }) :
    ∃ ps', forRange 0 ps.m_aPositions.length body ps = .ok ps' ∧
      ps'.m_aCharges = ps.m_aCharges ∧ ps'.m_aMasses = ps.m_aMasses ∧
      ps'.m_aPositions.length = ps.m_aPositions.length ∧
      ps'.m_aVelocities.length = ps.m_aVelocities.length ∧
      ∀ i p v, ps.m_aPositions[i]? = some p → ps.m_aVelocities[i]? = some v →
        ps'.m_aPositions[i]? = some (gp i p v) ∧ ps'.m_aVelocities[i]? = some (gv i v) := by
  obtain ⟨ps', h1, hc, hm, hpl, hvl, h⟩ := @forRange_inv _ body
    (fun k s => s.m_aCharges = ps.m_aCharges ∧ s.m_aMasses = ps.m_aMasses ∧
      s.m_aPositions.length = ps.m_aPositions.length ∧
      s.m_aVelocities.length = ps.m_aVelocities.length ∧
      ∀ i p v, ps.m_aPositions[i]? = some p → ps.m_aVelocities[i]? = some v →
        s.m_aPositions[i]? = some (if i < k then gp i p v else p) ∧
        s.m_aVelocities[i]? = some (if i < k then gv i v else v))
    0 ps.m_aPositions.length (Nat.zero_le _) ps ⟨rfl, rfl, rfl, rfl, fun i p v hp hv => by simp [hp, hv]⟩
    (fun k s _ hk ⟨hc, hm, hpl, hvl, h⟩ => by
      have hkv : k < ps.m_aVelocities.length := by omega
      have hp0 : ps.m_aPositions[k]? = some ps.m_aPositions[k] := List.getElem?_eq_getElem hk
      have hv0 : ps.m_aVelocities[k]? = some ps.m_aVelocities[k] := List.getElem?_eq_getElem hkv
      obtain ⟨hp1, hv1⟩ := h k _ _ hp0 hv0
      simp only [lt_irrefl, if_false] at hp1 hv1
      refine ⟨_, hbody k s _ _ hk hp1 hv1 hc hm, hc, hm, by simpa using hpl, by simpa using hvl, ?_⟩
      intro i p v hp hv
      obtain ⟨hp2, hv2⟩ := h i p v hp hv
      simp only [List.getElem?_set]
      by_cases hik : k = i
      · subst hik
        rw [hp0] at hp; rw [hv0] at hv
        cases hp; cases hv
        simp [hpl, hvl, hk, hkv]
      · have h3 : (i < k + 1) = (i < k) := by
          apply propext; constructor <;> intro h4 <;> omega
        simp only [hik, if_false, h3]
        exact ⟨hp2, hv2⟩)
  refine ⟨ps', h1, hc, hm, hpl, hvl, fun i p v hp hv => ?_⟩
  have hi : i < ps.m_aPositions.length := by
    by_contra hcon
    rw [List.getElem?_eq_none (by omega)] at hp
    cases hp
  simpa [hi] using h i p v hp hv


/-! ## Boundary handler -/

section Regularize

variable {F : Type} [LinearOrderedField F]

theorem regularize_body (world : World) (i : Nat) (s : ParticleSystem F) (p v : vec2 F)
    (hp : s.m_aPositions[i]? = some p) (hv : s.m_aVelocities[i]? = some v) :
    (do
      let p ← vget s.m_aPositions i
      let x := p.m_x
      let x := if x < 0.0 then x + ((world.m_width - 1 : Int) : F) else x
      let x := if x > ((world.m_width - 1 : Int) : F) then x - ((world.m_width - 1 : Int) : F) else x
      let y := p.m_y
      let y := if y < 0.0 then y + ((world.m_height - 1 : Int) : F) else y
      let y := if y > ((world.m_height - 1 : Int) : F) then y - ((world.m_height - 1 : Int) : F) else y
      let aPos ← vset s.m_aPositions i ⟨x, y⟩
      let v ← vget s.m_aVelocities i
      let aVel ← vset s.m_aVelocities i ⟨v.m_x * 0.99, v.m_y * 0.99⟩
      pure { s with m_aPositions := aPos, m_aVelocities := aVel } : Except Err (ParticleSystem F)) =
    .ok { s with
      m_aPositions := s.m_aPositions.set i
        ⟨wrapCoord p.m_x world.m_width, wrapCoord p.m_y world.m_height⟩,
      m_aVelocities := s.m_aVelocities.set i ⟨v.m_x * 0.99, v.m_y * 0.99⟩ } := by
  have hi : i < s.m_aPositions.length := by
    by_contra hcon
    rw [List.getElem?_eq_none (by omega)] at hp
    cases hp
  have hi2 : i < s.m_aVelocities.length := by
    by_contra hcon
    rw [List.getElem?_eq_none (by omega)] at hv
    cases hv
  simp only [vget_ok hp, vget_ok hv, ok_bind, vset_ok _ hi, vset_ok _ hi2, pure_eq_ok, wrapCoord]

/-- What `regularize` does to a system whose velocity vector is as long as its
position vector. -/
theorem regularize_spec (world : World) (ps : ParticleSystem F)
    (hlen : ps.m_aVelocities.length = ps.m_aPositions.length) :
    ∃ ps', regularize ps world = .ok ps' ∧
      ps'.m_aCharges = ps.m_aCharges ∧ ps'.m_aMasses = ps.m_aMasses ∧
      ps'.m_aPositions.length = ps.m_aPositions.length ∧
      ps'.m_aVelocities.length = ps.m_aVelocities.length ∧
      ∀ (i : Nat) (p v : vec2 F), ps.m_aPositions[i]? = some p → ps.m_aVelocities[i]? = some v →
        ps'.m_aPositions[i]? =
          some ⟨wrapCoord p.m_x world.m_width, wrapCoord p.m_y world.m_height⟩ ∧
        ps'.m_aVelocities[i]? = some ⟨v.m_x * 0.99, v.m_y * 0.99⟩ :=
  forRange_particles
    (fun _ p _ => ⟨wrapCoord p.m_x world.m_width, wrapCoord p.m_y world.m_height⟩)
    (fun _ v => ⟨v.m_x * 0.99, v.m_y * 0.99⟩) _ ps hlen
    (fun i s p v _ hp hv _ _ => regularize_body world i s p v hp hv)

theorem wrapCoord_eq (x : F) (n : Int) :
    wrapCoord x n =
      if x < 0 then x + ((n : F) - 1) else if x > (n : F) - 1 then x - ((n : F) - 1) else x := by
  have e0 : (0.0 : F) = 0 := by norm_num
  simp only [wrapCoord, e0, Int.cast_sub, Int.cast_one]
  by_cases h : x < 0
  · have h2 : ¬ (x + ((n : F) - 1) > (n : F) - 1) := by
      simp only [gt_iff_lt, not_lt]; linarith
    simp [h, h2]
  · simp [h]

end Regularize


/-- C7: `regularize` applies one additive correction per axis.  For every world and
every particle system (velocity vector as long as the position vector) the call
succeeds, keeps the number of particles, and moves particle `i` from `(x, y)` to
`(x', y')` with `x' = x + (width - 1)` if `x < 0`, `x' = x - (width - 1)` if
`x > width - 1` and `x' = x` otherwise, and the same for `y` with `height`: the
second correction never fires after the first, and nothing like a modulo is taken. -/
theorem regularize_single_correction (world : World) (ps : ParticleSystem ℝ)
    (hlen : ps.m_aVelocities.length = ps.m_aPositions.length) :
    ∃ ps', regularize ps world = .ok ps' ∧
      ps'.m_aPositions.length = ps.m_aPositions.length ∧
      ∀ (i : Nat) (p : vec2 ℝ), ps.m_aPositions[i]? = some p →
        ∃ p', ps'.m_aPositions[i]? = some p' ∧
          p'.m_x = (if p.m_x < 0 then p.m_x + ((world.m_width : ℝ) - 1)
            else if p.m_x > (world.m_width : ℝ) - 1 then p.m_x - ((world.m_width : ℝ) - 1)
            else p.m_x) ∧
          p'.m_y = (if p.m_y < 0 then p.m_y + ((world.m_height : ℝ) - 1)
            else if p.m_y > (world.m_height : ℝ) - 1 then p.m_y - ((world.m_height : ℝ) - 1)
            else p.m_y) := by
  obtain ⟨ps', h1, _, _, hpl, _, h⟩ := regularize_spec world ps hlen
  refine ⟨ps', h1, hpl, fun i p hp => ?_⟩
  have hi : i < ps.m_aVelocities.length := by
    by_contra hcon
    rw [List.getElem?_eq_none (by omega)] at hp
    cases hp
  obtain ⟨h2, _⟩ := h i p _ hp (List.getElem?_eq_getElem hi)
  exact ⟨_, h2, wrapCoord_eq _ _, wrapCoord_eq _ _⟩

/-- C7, witness: in a world of width 100 a particle at `x = -0.5` is moved to
`x = 98.5`. -/
theorem regularize_single_correction_witness :
    ∃ ps', regularize (⟨[⟨-0.5, 0⟩], [⟨0, 0⟩], [1], [1]⟩ : ParticleSystem ℝ) ⟨100, 100⟩ = .ok ps' ∧
      ∃ p' : vec2 ℝ, ps'.m_aPositions[0]? = some p' ∧ p'.m_x = 98.5 := by
  obtain ⟨ps', h1, _, h⟩ := regularize_single_correction ⟨100, 100⟩
    (⟨[⟨-0.5, 0⟩], [⟨0, 0⟩], [1], [1]⟩ : ParticleSystem ℝ) rfl
  obtain ⟨p', h2, h3, _⟩ := h 0 ⟨-0.5, 0⟩ rfl
  refine ⟨ps', h1, p', h2, ?_⟩
  rw [h3]; norm_num

/-- C8, counterexample: in a world of width 100 `regularize` moves a particle at
`x = 100.5` to `x = 1.5` (it subtracts `width - 1 = 99`), not to `x = 0.5`. -/
theorem regularize_100_5_not_0_5 :
    regularize (⟨[⟨100.5, 0⟩], [⟨0, 0⟩], [1], [1]⟩ : ParticleSystem ℝ) ⟨100, 100⟩
        = .ok ⟨[⟨1.5, 0⟩], [⟨0, 0⟩], [1], [1]⟩ ∧
      (1.5 : ℝ) ≠ 0.5 := by
  constructor
  · simp [regularize, forRange, forLoop, vget, vset]
    norm_num
  · norm_num

/-- C8, amended: in a world of width 100 (any height) `regularize` moves every
particle at `x = 100.5` to `x = 1.5`. -/
theorem regularize_100_5_to_1_5 (world : World) (hw : world.m_width = 100) (ps : ParticleSystem ℝ)
    (hlen : ps.m_aVelocities.length = ps.m_aPositions.length) (i : Nat) (p : vec2 ℝ)
    (hp : ps.m_aPositions[i]? = some p) (hx : p.m_x = 100.5) :
    ∃ (ps' : ParticleSystem ℝ) (p' : vec2 ℝ), regularize ps world = .ok ps' ∧
      ps'.m_aPositions[i]? = some p' ∧
      p'.m_x = 1.5 := by
  obtain ⟨ps', h1, _, _, _, _, h⟩ := regularize_spec world ps hlen
  have hi : i < ps.m_aVelocities.length := by
    by_contra hcon
    rw [List.getElem?_eq_none (by omega)] at hp
    cases hp
  obtain ⟨h2, _⟩ := h i p _ hp (List.getElem?_eq_getElem hi)
  refine ⟨ps', _, h1, h2, ?_⟩
  simp only [wrapCoord_eq, hw, hx]
  norm_num

/-- C8, witness of the amended statement. -/
theorem regularize_100_5_to_1_5_witness :
    ∃ (ps' : ParticleSystem ℝ) (p' : vec2 ℝ),
      regularize (⟨[⟨100.5, 7⟩], [⟨0, 0⟩], [1], [1]⟩ : ParticleSystem ℝ) ⟨100, 40⟩ = .ok ps' ∧
      ps'.m_aPositions[0]? = some p' ∧ p'.m_x = 1.5 :=
  regularize_100_5_to_1_5 ⟨100, 40⟩ rfl ⟨[⟨100.5, 7⟩], [⟨0, 0⟩], [1], [1]⟩ rfl 0 ⟨100.5, 7⟩ rfl rfl

/-- C9: for every world and every particle system (velocity vector as long as the
position vector) `regularize` succeeds and leaves every particle with exactly 0.99
times its previous velocity in both components, whatever its position. -/
theorem regularize_damping (world : World) (ps : ParticleSystem ℝ)
    (hlen : ps.m_aVelocities.length = ps.m_aPositions.length) :
    ∃ ps', regularize ps world = .ok ps' ∧
      ps'.m_aVelocities.length = ps.m_aVelocities.length ∧
      ∀ (i : Nat) (v : vec2 ℝ), ps.m_aVelocities[i]? = some v →
        ps'.m_aVelocities[i]? = some ⟨0.99 * v.m_x, 0.99 * v.m_y⟩ := by
  obtain ⟨ps', h1, _, _, _, hvl, h⟩ := regularize_spec world ps hlen
  refine ⟨ps', h1, hvl, fun i v hv => ?_⟩
  have hi : i < ps.m_aPositions.length := by
    by_contra hcon
    rw [List.getElem?_eq_none (by omega)] at hv
    cases hv
  obtain ⟨_, h2⟩ := h i _ v (List.getElem?_eq_getElem hi) hv
  rw [h2, mul_comm v.m_x, mul_comm v.m_y]

/-- C9, witness: a particle outside the domain (its position is corrected) with
velocity `(2, -3)` leaves with velocity `(0.99 * 2, 0.99 * -3)`. -/
theorem regularize_damping_witness :
    ∃ ps', regularize (⟨[⟨-0.5, 200⟩], [⟨2, -3⟩], [1], [1]⟩ : ParticleSystem ℝ) ⟨100, 100⟩ = .ok ps' ∧
      ps'.m_aVelocities[0]? = some ⟨0.99 * 2, 0.99 * -3⟩ := by
  obtain ⟨ps', h1, _, h⟩ := regularize_damping ⟨100, 100⟩
    (⟨[⟨-0.5, 200⟩], [⟨2, -3⟩], [1], [1]⟩ : ParticleSystem ℝ) rfl
  exact ⟨ps', h1, h 0 ⟨2, -3⟩ rfl⟩


/-! ## Claims about the force law -/

/-- C10: at zero separation `getForce` returns exactly the zero vector, for every
position and all charges; no guarded operation fails (the divisor is `0 + 1`). -/
theorem getForce_coincident (pos : vec2 ℝ) (c1 c2 : ℝ) :
    getForce Real.sqrt pos c1 pos c2 = .ok ⟨0, 0⟩ := by
  rw [getForce_eq]
  simp [forceVal]

theorem forceVal_antisymm (A B : vec2 ℝ) (cA cB : ℝ) :
    forceVal Real.sqrt B cB A cA =
      ⟨-(forceVal Real.sqrt A cA B cB).m_x, -(forceVal Real.sqrt A cA B cB).m_y⟩ := by
  have e : (B.m_x - A.m_x) * (B.m_x - A.m_x) + (B.m_y - A.m_y) * (B.m_y - A.m_y) + 1
      = (A.m_x - B.m_x) * (A.m_x - B.m_x) + (A.m_y - B.m_y) * (A.m_y - B.m_y) + 1 := by ring
  simp only [forceVal, e, Force.mk.injEq]
  constructor <;> ring

/-- C4, the code at a failing input: for `A = (1, 0)`, `B = (0, 0)` and the like
charges `cA = cB = 1` the softened distance is `√2 < 10`, and the force that
`getForce` returns for `A` is `((√2 - 10) / 4, 0)`, whose dot product with `A - B`
is negative: the force pulls `A` towards `B`. -/
theorem getForce_like_charges_short_range :
    getForce Real.sqrt ⟨1, 0⟩ 1 ⟨0, 0⟩ 1 = .ok ⟨(Real.sqrt 2 - 10) / 4, 0⟩ ∧
      Real.sqrt ((1 - 0) ^ 2 + (0 - 0) ^ 2 + 1) < 10 ∧
      (Real.sqrt 2 - 10) / 4 * (1 - 0) + 0 * (0 - 0) < 0 := by
  have h2 : Real.sqrt 2 < 10 := by
    rw [Real.sqrt_lt' (by norm_num)]; norm_num
  refine ⟨?_, ?_, ?_⟩
  · rw [getForce_eq]
    norm_num [forceVal]
    ring
  · norm_num
    exact h2
  · linarith


/-! ## Integrator: force accumulation -/

theorem getElem?_posAt {F : Type} [LinearOrderedField F] (ps : ParticleSystem F) {j : Nat}
    (hj : j < ps.m_aPositions.length) : ps.m_aPositions[j]? = some (ps.posAt j) := by
  simp [ParticleSystem.posAt, List.getD, List.getElem?_eq_getElem hj]

theorem getElem?_velAt {F : Type} [LinearOrderedField F] (ps : ParticleSystem F) {j : Nat}
    (hj : j < ps.m_aVelocities.length) : ps.m_aVelocities[j]? = some (ps.velAt j) := by
  simp [ParticleSystem.velAt, List.getD, List.getElem?_eq_getElem hj]

theorem getElem?_chargeAt {F : Type} [LinearOrderedField F] (ps : ParticleSystem F) {j : Nat}
    (hj : j < ps.m_aCharges.length) : ps.m_aCharges[j]? = some (ps.chargeAt j) := by
  simp [ParticleSystem.chargeAt, List.getD, List.getElem?_eq_getElem hj]

theorem getElem?_massAt {F : Type} [LinearOrderedField F] (ps : ParticleSystem F) {j : Nat}
    (hj : j < ps.m_aMasses.length) : ps.m_aMasses[j]? = some (ps.massAt j) := by
  simp [ParticleSystem.massAt, List.getD, List.getElem?_eq_getElem hj]

theorem forceAt_set {F : Type} [LinearOrderedField F] (s : List (Force F)) (i t : Nat)
    (f : Force F) (hi : i < s.length) :
    forceAt (s.set i f) t = if t = i then (f.m_x, f.m_y) else forceAt s t := by
  simp only [forceAt, List.getElem?_set]
  by_cases h : i = t
  · subst h; simp [hi]
  · have h2 : ¬ t = i := fun e => h e.symm
    simp [h, h2]

theorem forceAt_getElem {F : Type} [LinearOrderedField F] (s : List (Force F)) (i : Nat)
    (hi : i < s.length) : forceAt s i = (s[i].m_x, s[i].m_y) := by
  simp [forceAt, List.getElem?_eq_getElem hi]

theorem iterPairBody_spec (ps : ParticleSystem ℝ)
    (hq : ps.m_aCharges.length = ps.m_aPositions.length) (i j : Nat)
    (hi : i < ps.m_aPositions.length) (hj : j < ps.m_aPositions.length) (hij : i ≠ j)
    (s : List (Force ℝ)) (hs : s.length = ps.m_aPositions.length) :
    ∃ s', iterPairBody Real.sqrt ps (ps.posAt i) i j s = .ok s' ∧
      s'.length = ps.m_aPositions.length ∧
      ∀ t, forceAt s' t = forceAt s t +
        ((if t = i then pairForce Real.sqrt ps i j else 0) +
         (if t = j then -pairForce Real.sqrt ps i j else 0)) := by
  have hi' : i < s.length := by omega
  have hj' : j < s.length := by omega
  obtain ⟨fv, hfv⟩ : ∃ fv, fv = forceVal Real.sqrt (ps.posAt i) (ps.chargeAt i)
      (ps.posAt j) (ps.chargeAt j) := ⟨_, rfl⟩
  obtain ⟨s1, hs1⟩ : ∃ s1, s1 = s.set i ⟨s[i].m_x + fv.m_x, s[i].m_y + fv.m_y⟩ := ⟨_, rfl⟩
  have hj2 : j < s1.length := by rw [hs1]; simpa using hj'
  have hget : s1[j]? = some s[j] := by
    rw [hs1, List.getElem?_set_ne hij, List.getElem?_eq_getElem hj']
  have hrun : iterPairBody Real.sqrt ps (ps.posAt i) i j s =
      .ok (s1.set j ⟨s[j].m_x + -fv.m_x, s[j].m_y + -fv.m_y⟩) := by
    simp only [iterPairBody, vget_ok (getElem?_posAt ps hj),
      vget_ok (getElem?_chargeAt ps (hq.symm ▸ hi)), vget_ok (getElem?_chargeAt ps (hq.symm ▸ hj)),
      getForce_eq, ok_bind, vget_ok (List.getElem?_eq_getElem hi'), vset_ok _ hi', ← hfv, ← hs1,
      vget_ok hget, vset_ok _ hj2]
  refine ⟨_, hrun, ?_, ?_⟩
  · simp [hs1, hs]
  · intro t
    rw [forceAt_set _ _ _ _ hj2, hs1, forceAt_set _ _ _ _ hi']
    by_cases h1 : t = j
    · subst h1
      have h2 : ¬ t = i := fun e => hij e.symm
      simp only [h2, if_true, if_false, forceAt_getElem s t hj', pairForce, zero_add, ← hfv]
      simp [Prod.ext_iff]
    · by_cases h2 : t = i
      · subst h2
        simp only [h1, if_true, if_false, forceAt_getElem s t hi', pairForce, add_zero, ← hfv]
        simp
      · simp [h1, h2]

theorem iterImageBody_spec (ps : ParticleSystem ℝ) (world : World)
    (hq : ps.m_aCharges.length = ps.m_aPositions.length) (i o j : Nat)
    (hi : i < ps.m_aPositions.length) (hj : j < ps.m_aPositions.length) (ho : o < 8)
    (s : List (Force ℝ)) (hs : s.length = ps.m_aPositions.length) :
    ∃ s', iterImageBody Real.sqrt ps world (ps.posAt i) i o j s = .ok s' ∧
      s'.length = ps.m_aPositions.length ∧
      ∀ t, forceAt s' t = forceAt s t +
        (if t = i then imageForce Real.sqrt ps world i o j else 0) := by
  have hi' : i < s.length := by omega
  have ho' : offsets[o]? = some (offsets.getD o (0, 0)) := by
    have : o < offsets.length := by simpa [offsets] using ho
    simp [List.getD, List.getElem?_eq_getElem this]
  obtain ⟨fv, hfv⟩ : ∃ fv, fv = forceVal Real.sqrt (ps.posAt i) (ps.chargeAt i)
      (image world (offsets.getD o (0, 0)) (ps.posAt j)) (ps.chargeAt j) := ⟨_, rfl⟩
  have hrun : iterImageBody Real.sqrt ps world (ps.posAt i) i o j s =
      .ok (s.set i ⟨s[i].m_x + fv.m_x, s[i].m_y + fv.m_y⟩) := by
    simp only [iterImageBody, vget_ok (getElem?_posAt ps hj), vget_ok ho',
      vget_ok (getElem?_chargeAt ps (hq.symm ▸ hi)), vget_ok (getElem?_chargeAt ps (hq.symm ▸ hj)),
      getForce_eq, ok_bind, vget_ok (List.getElem?_eq_getElem hi'), vset_ok _ hi', hfv, image]
  refine ⟨_, hrun, ?_, ?_⟩
  · simp [hs]
  · intro t
    rw [forceAt_set _ _ _ _ hi']
    by_cases h2 : t = i
    · subst h2
      simp only [if_true, forceAt_getElem s t hi', imageForce, ← hfv]
      simp
    · simp [h2]


theorem forceAt_replicate (n t : Nat) :
    forceAt (List.replicate n (⟨0.0, 0.0⟩ : Force ℝ)) t = 0 := by
  have e0 : (0.0 : ℝ) = 0 := by norm_num
  by_cases h : t < n
  · simp [forceAt, List.getElem?_replicate, h, e0]
  · simp [forceAt, List.getElem?_replicate, h]

/-- The vector `aForces` that the accumulation loops of `iter` build, as a sum over
the iterations of the terms they add. -/
theorem iterForces_accum (ps : ParticleSystem ℝ) (world : World)
    (hq : ps.m_aCharges.length = ps.m_aPositions.length) :
    ∃ aForces, iterForces Real.sqrt ps world = .ok aForces ∧
      aForces.length = ps.m_aPositions.length ∧
      ∀ t, forceAt aForces t =
        ∑ i in Finset.Ico 0 ps.m_aPositions.length,
          ((∑ j in Finset.Ico (i + 1) ps.m_aPositions.length,
              ((if t = i then pairForce Real.sqrt ps i j else 0) +
               (if t = j then -pairForce Real.sqrt ps i j else 0))) +
           ∑ o in Finset.Ico 0 8, ∑ j in Finset.Ico 0 ps.m_aPositions.length,
              (if t = i then imageForce Real.sqrt ps world i o j else 0)) := by
  obtain ⟨s', h1, h2, h3⟩ := forRange_accum
    (fun s : List (Force ℝ) => s.length = ps.m_aPositions.length) forceAt
    (fun i aForces => do
      let par1 ← vget ps.m_aPositions i
      let aForces ← forRange (i + 1) ps.m_aPositions.length
        (iterPairBody Real.sqrt ps par1 i) aForces
      forRange 0 8 (fun offsetId aForces =>
        forRange 0 ps.m_aPositions.length
          (iterImageBody Real.sqrt ps world par1 i offsetId) aForces) aForces)
    (fun i t =>
      (∑ j in Finset.Ico (i + 1) ps.m_aPositions.length,
          ((if t = i then pairForce Real.sqrt ps i j else 0) +
           (if t = j then -pairForce Real.sqrt ps i j else 0))) +
       ∑ o in Finset.Ico 0 8, ∑ j in Finset.Ico 0 ps.m_aPositions.length,
          (if t = i then imageForce Real.sqrt ps world i o j else 0))
    0 ps.m_aPositions.length
    (fun i s _ hi hs => by
      obtain ⟨s1, e1, l1, x1⟩ := forRange_accum
        (fun s : List (Force ℝ) => s.length = ps.m_aPositions.length) forceAt
        (iterPairBody Real.sqrt ps (ps.posAt i) i)
        (fun j t => (if t = i then pairForce Real.sqrt ps i j else 0) +
           (if t = j then -pairForce Real.sqrt ps i j else 0))
        (i + 1) ps.m_aPositions.length
        (fun j u hj1 hj2 hu => iterPairBody_spec ps hq i j hi hj2 (by omega) u hu) s hs
      obtain ⟨s2, e2, l2, x2⟩ := forRange_accum
        (fun s : List (Force ℝ) => s.length = ps.m_aPositions.length) forceAt
        (fun offsetId aForces => forRange 0 ps.m_aPositions.length
          (iterImageBody Real.sqrt ps world (ps.posAt i) i offsetId) aForces)
        (fun o t => ∑ j in Finset.Ico 0 ps.m_aPositions.length,
          (if t = i then imageForce Real.sqrt ps world i o j else 0))
        0 8
        (fun o u _ ho hu => forRange_accum
          (fun s : List (Force ℝ) => s.length = ps.m_aPositions.length) forceAt
          (iterImageBody Real.sqrt ps world (ps.posAt i) i o)
          (fun j t => if t = i then imageForce Real.sqrt ps world i o j else 0)
          0 ps.m_aPositions.length
          (fun j w _ hj hw => iterImageBody_spec ps world hq i o j hi hj ho w hw) u hu) s1 l1
      refine ⟨s2, ?_, l2, fun t => ?_⟩
      · simp only [vget_ok (getElem?_posAt ps hi), ok_bind, e1, e2]
      · rw [x2 t, x1 t, add_assoc])
    (List.replicate ps.m_aPositions.length ⟨0.0, 0.0⟩) (by simp)
  refine ⟨s', h1, h2, fun t => ?_⟩
  rw [h3 t, forceAt_replicate, zero_add]


theorem pair_sum_rearrange {M : Type} [AddCommGroup M] (G : ℕ → ℕ → M)
    (hG : ∀ i j, G j i = -G i j) (n t : ℕ) (ht : t < n) :
    ∑ i in Finset.Ico 0 n, ∑ j in Finset.Ico (i + 1) n,
        ((if t = i then G i j else 0) + (if t = j then -G i j else 0))
      = ∑ j in (Finset.range n).erase t, G t j := by
  have hterm : ∀ i ∈ Finset.Ico 0 n, ∑ j in Finset.Ico (i + 1) n,
        ((if t = i then G i j else 0) + (if t = j then -G i j else 0))
      = (if t = i then ∑ j in Finset.Ico (t + 1) n, G t j else 0) +
        (if i < t then G t i else 0) := by
    intro i _
    rw [Finset.sum_add_distrib]
    congr 1
    · by_cases h : t = i
      · subst h; simp
      · simp [h]
    · rw [Finset.sum_ite_eq]
      by_cases h : i < t
      · have : t ∈ Finset.Ico (i + 1) n := by simp; omega
        simp [this, h, hG i t]
      · have : t ∉ Finset.Ico (i + 1) n := by simp; omega
        simp [this, h]
  rw [Finset.sum_congr rfl hterm, Finset.sum_add_distrib, Finset.sum_ite_eq]
  have ht' : t ∈ Finset.Ico 0 n := by simp [ht]
  simp only [ht', if_true]
  rw [← Finset.sum_filter]
  have hf : Finset.filter (fun i => i < t) (Finset.Ico 0 n) = Finset.Ico 0 t := by
    ext i; simp; omega
  rw [hf, Finset.sum_erase_eq_sub (by simp [ht]), Finset.range_eq_Ico,
    ← Finset.sum_Ico_consecutive _ (Nat.zero_le t) ht.le,
    Finset.sum_eq_sum_Ico_succ_bot ht]
  abel

theorem pairForce_antisymm (ps : ParticleSystem ℝ) (i j : Nat) :
    pairForce Real.sqrt ps j i = -pairForce Real.sqrt ps i j := by
  simp only [pairForce, forceVal_antisymm (ps.posAt i) (ps.posAt j)]
  rfl

/-- The accumulation loops of `iter` leave the net force on particle `t` in
`aForces[t]`. -/
theorem iterForces_spec (ps : ParticleSystem ℝ) (world : World)
    (hq : ps.m_aCharges.length = ps.m_aPositions.length) :
    ∃ aForces, iterForces Real.sqrt ps world = .ok aForces ∧
      aForces.length = ps.m_aPositions.length ∧
      ∀ t, t < ps.m_aPositions.length → forceAt aForces t = netForce Real.sqrt ps world t := by
  obtain ⟨aForces, h1, h2, h3⟩ := iterForces_accum ps world hq
  refine ⟨aForces, h1, h2, fun t ht => ?_⟩
  rw [h3 t, Finset.sum_add_distrib,
    pair_sum_rearrange (pairForce Real.sqrt ps) (pairForce_antisymm ps) _ t ht, netForce]
  congr 1
  have hterm : ∀ i ∈ Finset.Ico 0 ps.m_aPositions.length,
      (∑ o in Finset.Ico 0 8, ∑ j in Finset.Ico 0 ps.m_aPositions.length,
        (if t = i then imageForce Real.sqrt ps world i o j else 0))
      = if t = i then ∑ o in Finset.range 8, ∑ j in Finset.range ps.m_aPositions.length,
          imageForce Real.sqrt ps world i o j else 0 := by
    intro i _
    by_cases h : t = i
    · subst h
      simp only [if_true, Finset.range_eq_Ico]
    · simp [h]
  rw [Finset.sum_congr rfl hterm, Finset.sum_ite_eq]
  simp [ht]

theorem iterUpdate_spec (aForces : List (Force ℝ)) (ps : ParticleSystem ℝ) (dt : ℝ)
    (hf : aForces.length = ps.m_aPositions.length)
    (hv : ps.m_aVelocities.length = ps.m_aPositions.length)
    (hm : ps.m_aMasses.length = ps.m_aPositions.length)
    (hpos : ∀ m ∈ ps.m_aMasses, 0 < m) :
    ∃ ps', iterUpdate aForces ps dt = .ok ps' ∧
      ps'.m_aCharges = ps.m_aCharges ∧ ps'.m_aMasses = ps.m_aMasses ∧
      ps'.m_aPositions.length = ps.m_aPositions.length ∧
      ps'.m_aVelocities.length = ps.m_aVelocities.length ∧
      ∀ (i : Nat) (p v : vec2 ℝ), ps.m_aPositions[i]? = some p → ps.m_aVelocities[i]? = some v →
        ps'.m_aPositions[i]? = some
          ⟨p.m_x + (v.m_x + (forceAt aForces i).1 / ps.massAt i * dt) * dt,
           p.m_y + (v.m_y + (forceAt aForces i).2 / ps.massAt i * dt) * dt⟩ ∧
        ps'.m_aVelocities[i]? = some
          ⟨v.m_x + (forceAt aForces i).1 / ps.massAt i * dt,
           v.m_y + (forceAt aForces i).2 / ps.massAt i * dt⟩ :=
  forRange_particles
    (fun i p v => ⟨p.m_x + (v.m_x + (forceAt aForces i).1 / ps.massAt i * dt) * dt,
      p.m_y + (v.m_y + (forceAt aForces i).2 / ps.massAt i * dt) * dt⟩)
    (fun i v => ⟨v.m_x + (forceAt aForces i).1 / ps.massAt i * dt,
      v.m_y + (forceAt aForces i).2 / ps.massAt i * dt⟩) _ ps hv
    (fun i s p v hi hp hv' _ hms => by
      have hi1 : i < aForces.length := by omega
      have hi2 : i < ps.m_aMasses.length := by omega
      have hi3 : i < s.m_aPositions.length := by
        by_contra hcon
        rw [List.getElem?_eq_none (by omega)] at hp
        cases hp
      have hi4 : i < s.m_aVelocities.length := by
        by_contra hcon
        rw [List.getElem?_eq_none (by omega)] at hv'
        cases hv'
      have hm0 : ps.massAt i ≠ 0 := by
        have h1 := getElem?_massAt ps hi2
        exact (hpos _ (List.getElem?_mem h1)).ne'
      simp only [vget_ok (List.getElem?_eq_getElem hi1), hms, vget_ok (getElem?_massAt ps hi2),
        vget_ok hv', vget_ok hp, ok_bind, fdiv_ok hm0, vset_ok _ hi3, vset_ok _ hi4, pure_eq_ok,
        forceAt_getElem aForces i hi1])


/-- One call of `iter` on a system whose four vectors have the same length and whose
masses are positive: a semi-implicit Euler step under the net forces. -/
theorem iter_spec (world : World) (dt : ℝ) (ps : ParticleSystem ℝ)
    (hv : ps.m_aVelocities.length = ps.m_aPositions.length)
    (hq : ps.m_aCharges.length = ps.m_aPositions.length)
    (hm : ps.m_aMasses.length = ps.m_aPositions.length)
    (hpos : ∀ m ∈ ps.m_aMasses, 0 < m) :
    ∃ ps', iter Real.sqrt ps world dt = .ok ps' ∧
      ps'.m_aCharges = ps.m_aCharges ∧ ps'.m_aMasses = ps.m_aMasses ∧
      ps'.m_aPositions.length = ps.m_aPositions.length ∧
      ps'.m_aVelocities.length = ps.m_aPositions.length ∧
      ∀ i, i < ps.m_aPositions.length →
        ps'.m_aVelocities[i]? = some
          ⟨(ps.velAt i).m_x + (netForce Real.sqrt ps world i).1 / ps.massAt i * dt,
           (ps.velAt i).m_y + (netForce Real.sqrt ps world i).2 / ps.massAt i * dt⟩ ∧
        ps'.m_aPositions[i]? = some
          ⟨(ps.posAt i).m_x +
              ((ps.velAt i).m_x + (netForce Real.sqrt ps world i).1 / ps.massAt i * dt) * dt,
           (ps.posAt i).m_y +
              ((ps.velAt i).m_y + (netForce Real.sqrt ps world i).2 / ps.massAt i * dt) * dt⟩ := by
  obtain ⟨aForces, h1, h2, h3⟩ := iterForces_spec ps world hq
  obtain ⟨ps', g1, g2, g3, g4, g5, g6⟩ := iterUpdate_spec aForces ps dt h2 hv hm hpos
  refine ⟨ps', ?_, g2, g3, g4, g5.trans hv, fun i hi => ?_⟩
  · simp only [iter, h1, ok_bind, g1]
  · obtain ⟨k1, k2⟩ := g6 i _ _ (getElem?_posAt ps hi) (getElem?_velAt ps (hv.symm ▸ hi))
    rw [h3 i hi] at k1 k2
    exact ⟨k2, k1⟩

theorem offsets_toFinset :
    ((({-1, 0, 1} : Finset ℤ) ×ˢ ({-1, 0, 1} : Finset ℤ)).erase (0, 0)) = offsets.toFinset := by
  decide

/-- A sum over the entries of the table `offsets` is a sum over the eight non-zero
offsets with components in `{-1, 0, 1}`. -/
theorem sum_offsets {M : Type} [AddCommMonoid M] (f : ℤ × ℤ → M) :
    ∑ o in Finset.range 8, f (offsets.getD o (0, 0))
      = ∑ o in (({-1, 0, 1} : Finset ℤ) ×ˢ ({-1, 0, 1} : Finset ℤ)).erase (0, 0), f o := by
  rw [offsets_toFinset, List.sum_toFinset f (by decide)]
  simp [Finset.sum_range_succ, offsets]
  abel

theorem netForce_fst (ps : ParticleSystem ℝ) (world : World) (t : Nat) :
    (netForce Real.sqrt ps world t).1 =
      (∑ j in (Finset.range ps.m_aPositions.length).erase t,
        (forceVal Real.sqrt (ps.posAt t) (ps.chargeAt t) (ps.posAt j) (ps.chargeAt j)).m_x) +
      ∑ o in (({-1, 0, 1} : Finset ℤ) ×ˢ ({-1, 0, 1} : Finset ℤ)).erase (0, 0),
        ∑ j in Finset.range ps.m_aPositions.length,
          (forceVal Real.sqrt (ps.posAt t) (ps.chargeAt t)
            ⟨(ps.posAt j).m_x + (o.1 : ℝ) * (world.m_width : ℝ),
             (ps.posAt j).m_y + (o.2 : ℝ) * (world.m_height : ℝ)⟩ (ps.chargeAt j)).m_x := by
  rw [← sum_offsets]
  simp only [netForce, Prod.fst_add, Prod.fst_sum, pairForce, imageForce, image, Int.cast_mul]

theorem netForce_snd (ps : ParticleSystem ℝ) (world : World) (t : Nat) :
    (netForce Real.sqrt ps world t).2 =
      (∑ j in (Finset.range ps.m_aPositions.length).erase t,
        (forceVal Real.sqrt (ps.posAt t) (ps.chargeAt t) (ps.posAt j) (ps.chargeAt j)).m_y) +
      ∑ o in (({-1, 0, 1} : Finset ℤ) ×ˢ ({-1, 0, 1} : Finset ℤ)).erase (0, 0),
        ∑ j in Finset.range ps.m_aPositions.length,
          (forceVal Real.sqrt (ps.posAt t) (ps.chargeAt t)
            ⟨(ps.posAt j).m_x + (o.1 : ℝ) * (world.m_width : ℝ),
             (ps.posAt j).m_y + (o.2 : ℝ) * (world.m_height : ℝ)⟩ (ps.chargeAt j)).m_y := by
  rw [← sum_offsets]
  simp only [netForce, Prod.snd_add, Prod.snd_sum, pairForce, imageForce, image, Int.cast_mul]

/-- C1: `iter` is a semi-implicit Euler step computed from the pre-step positions.
For every world, every `dt` and every particle system with `N` particles (four
vectors of length `N`) of positive mass, `getForce` never fails (its value is `gf`),
`iter` succeeds, leaves charges and masses unchanged, and for every `i < N` the new
velocity is `v_i + (A_i / m_i) * dt` and the new position is `p_i` plus the new
velocity times `dt`, where `A_i` is the sum over all `j ≠ i` of
`getForce (p_i, q_i, p_j, q_j)` plus the sum over the eight non-zero offsets `o` with
components in `{-1, 0, 1}` and over all `j` (`j = i` included) of
`getForce (p_i, q_i, p_j + (o.1 * width, o.2 * height), q_j)`. -/
theorem iter_semi_implicit_euler (world : World) (dt : ℝ) (ps : ParticleSystem ℝ)
    (hv : ps.m_aVelocities.length = ps.m_aPositions.length)
    (hq : ps.m_aCharges.length = ps.m_aPositions.length)
    (hm : ps.m_aMasses.length = ps.m_aPositions.length)
    (hpos : ∀ m ∈ ps.m_aMasses, 0 < m) :
    ∃ (gf : vec2 ℝ → ℝ → vec2 ℝ → ℝ → Force ℝ) (A : Nat → Force ℝ) (ps' : ParticleSystem ℝ),
      (∀ a ca b cb, getForce Real.sqrt a ca b cb = .ok (gf a ca b cb)) ∧
      (∀ i, A i =
        ⟨(∑ j in (Finset.range ps.m_aPositions.length).erase i,
            (gf (ps.posAt i) (ps.chargeAt i) (ps.posAt j) (ps.chargeAt j)).m_x) +
          ∑ o in (({-1, 0, 1} : Finset ℤ) ×ˢ ({-1, 0, 1} : Finset ℤ)).erase (0, 0),
            ∑ j in Finset.range ps.m_aPositions.length,
              (gf (ps.posAt i) (ps.chargeAt i)
                ⟨(ps.posAt j).m_x + (o.1 : ℝ) * (world.m_width : ℝ),
                 (ps.posAt j).m_y + (o.2 : ℝ) * (world.m_height : ℝ)⟩ (ps.chargeAt j)).m_x,
         (∑ j in (Finset.range ps.m_aPositions.length).erase i,
            (gf (ps.posAt i) (ps.chargeAt i) (ps.posAt j) (ps.chargeAt j)).m_y) +
          ∑ o in (({-1, 0, 1} : Finset ℤ) ×ˢ ({-1, 0, 1} : Finset ℤ)).erase (0, 0),
            ∑ j in Finset.range ps.m_aPositions.length,
              (gf (ps.posAt i) (ps.chargeAt i)
                ⟨(ps.posAt j).m_x + (o.1 : ℝ) * (world.m_width : ℝ),
                 (ps.posAt j).m_y + (o.2 : ℝ) * (world.m_height : ℝ)⟩ (ps.chargeAt j)).m_y⟩) ∧
      iter Real.sqrt ps world dt = .ok ps' ∧
      ps'.m_aCharges = ps.m_aCharges ∧ ps'.m_aMasses = ps.m_aMasses ∧
      ps'.m_aPositions.length = ps.m_aPositions.length ∧
      ps'.m_aVelocities.length = ps.m_aPositions.length ∧
      ∀ i, i < ps.m_aPositions.length →
        ∃ v' p' : vec2 ℝ, ps'.m_aVelocities[i]? = some v' ∧ ps'.m_aPositions[i]? = some p' ∧
          v'.m_x = (ps.velAt i).m_x + (A i).m_x / ps.massAt i * dt ∧
          v'.m_y = (ps.velAt i).m_y + (A i).m_y / ps.massAt i * dt ∧
          p'.m_x = (ps.posAt i).m_x + v'.m_x * dt ∧
          p'.m_y = (ps.posAt i).m_y + v'.m_y * dt := by
  obtain ⟨ps', h1, h2, h3, h4, h5, h6⟩ := iter_spec world dt ps hv hq hm hpos
  refine ⟨forceVal Real.sqrt, _, ps', getForce_eq, fun i => rfl, h1, h2, h3, h4, h5,
    fun i hi => ?_⟩
  obtain ⟨k1, k2⟩ := h6 i hi
  refine ⟨_, _, k1, k2, ?_, ?_, rfl, rfl⟩
  · simp only [netForce_fst]
  · simp only [netForce_snd]

/-- C1, witness: the two-particle scenario of the specification in a 100 × 100 world
with `dt = 0.1`. -/
theorem iter_semi_implicit_euler_witness :
    ∃ ps' : ParticleSystem ℝ, iter Real.sqrt symmetricPair ⟨100, 100⟩ 0.1 = .ok ps' ∧
      ps'.m_aCharges = [5, 5] ∧ ps'.m_aMasses = [1, 1] ∧ ps'.m_aPositions.length = 2 := by
  obtain ⟨_, _, ps', _, _, h1, h2, h3, h4, _⟩ := iter_semi_implicit_euler ⟨100, 100⟩ 0.1
    (symmetricPair : ParticleSystem ℝ) rfl rfl rfl (by simp [symmetricPair])
  exact ⟨ps', h1, h2, h3, h4⟩


theorem lt_length_of_getElem? {α : Type} {xs : List α} {i : Nat} {a : α}
    (h : xs[i]? = some a) : i < xs.length := by
  by_contra hcon
  rw [List.getElem?_eq_none (by omega)] at h
  cases h

/-- C5: `getForce` is exactly antisymmetric under exchanging the two particles, for
all positions and charges; and one run of the body of the pair loop of `iter` for
the particles `i ≠ j` adds to `aForces[i]` the force on `i` due to `j` and to
`aForces[j]` exactly the force on `j` due to `i`. -/
theorem getForce_antisymm :
    (∀ (A B : vec2 ℝ) (cA cB : ℝ), ∃ f : Force ℝ,
      getForce Real.sqrt A cA B cB = .ok f ∧
      getForce Real.sqrt B cB A cA = .ok ⟨-f.m_x, -f.m_y⟩) ∧
    (∀ (ps : ParticleSystem ℝ) (i j : Nat) (aForces : List (Force ℝ)) (pi pj : vec2 ℝ)
      (qi qj : ℝ) (ai aj : Force ℝ), i ≠ j →
      ps.m_aPositions[i]? = some pi → ps.m_aPositions[j]? = some pj →
      ps.m_aCharges[i]? = some qi → ps.m_aCharges[j]? = some qj →
      aForces[i]? = some ai → aForces[j]? = some aj →
      ∃ (fi fj : Force ℝ) (out : List (Force ℝ)),
        getForce Real.sqrt pi qi pj qj = .ok fi ∧
        getForce Real.sqrt pj qj pi qi = .ok fj ∧
        iterPairBody Real.sqrt ps pi i j aForces = .ok out ∧
        out[i]? = some ⟨ai.m_x + fi.m_x, ai.m_y + fi.m_y⟩ ∧
        out[j]? = some ⟨aj.m_x + fj.m_x, aj.m_y + fj.m_y⟩) := by
  constructor
  · intro A B cA cB
    exact ⟨_, getForce_eq A cA B cB, by rw [getForce_eq, forceVal_antisymm]⟩
  · intro ps i j aForces pi pj qi qj ai aj hij hpi hpj hqi hqj hai haj
    have hi := lt_length_of_getElem? hai
    have hj := lt_length_of_getElem? haj
    obtain ⟨fv, hfv⟩ : ∃ fv, fv = forceVal Real.sqrt pi qi pj qj := ⟨_, rfl⟩
    obtain ⟨s1, hs1⟩ : ∃ s1, s1 = aForces.set i ⟨ai.m_x + fv.m_x, ai.m_y + fv.m_y⟩ := ⟨_, rfl⟩
    have hj2 : j < s1.length := by rw [hs1]; simpa using hj
    have hget : s1[j]? = some aj := by rw [hs1, List.getElem?_set_ne hij, haj]
    have hrun : iterPairBody Real.sqrt ps pi i j aForces =
        .ok (s1.set j ⟨aj.m_x + -fv.m_x, aj.m_y + -fv.m_y⟩) := by
      simp only [iterPairBody, vget_ok hpj, vget_ok hqi, vget_ok hqj, getForce_eq, ok_bind,
        vget_ok hai, vset_ok _ hi, ← hfv, ← hs1, vget_ok hget, vset_ok _ hj2]
    refine ⟨fv, ⟨-fv.m_x, -fv.m_y⟩, _, by rw [hfv, getForce_eq],
      by rw [hfv, getForce_eq, forceVal_antisymm], hrun, ?_, ?_⟩
    · rw [List.getElem?_set_ne (Ne.symm hij), hs1, List.getElem?_set_self hi]
    · rw [List.getElem?_set_self hj2]

/-- C5, witness: the pair loop body for the two particles of the scenario of the
specification, starting from zero accumulators. -/
theorem getForce_antisymm_witness :
    ∃ (fi fj : Force ℝ) (out : List (Force ℝ)),
      getForce Real.sqrt ⟨40, 50⟩ 5 ⟨60, 50⟩ 5 = .ok fi ∧
      getForce Real.sqrt ⟨60, 50⟩ 5 ⟨40, 50⟩ 5 = .ok fj ∧
      iterPairBody Real.sqrt symmetricPair ⟨40, 50⟩ 0 1 [⟨0, 0⟩, ⟨0, 0⟩] = .ok out ∧
      out[0]? = some ⟨0 + fi.m_x, 0 + fi.m_y⟩ ∧
      out[1]? = some ⟨0 + fj.m_x, 0 + fj.m_y⟩ :=
  getForce_antisymm.2 symmetricPair 0 1 [⟨0, 0⟩, ⟨0, 0⟩] ⟨40, 50⟩ ⟨60, 50⟩ 5 5 ⟨0, 0⟩ ⟨0, 0⟩
    (by decide) rfl rfl rfl rfl rfl rfl


/-! ## Field sampler -/

theorem grid_index (W r c : Nat) (hc : c < W) :
    (r * W + c) / W = r ∧ (r * W + c) % W = c := by
  have hW : 0 < W := by omega
  constructor
  · rw [Nat.add_comm, Nat.add_mul_div_right _ _ hW, Nat.div_eq_of_lt hc, Nat.zero_add]
  · rw [Nat.add_comm, Nat.add_mul_mod_self_right, Nat.mod_eq_of_lt hc]

theorem grid_index_lt (H W r c : Nat) (hr : r < H) (hc : c < W) : r * W + c < H * W := by
  have h1 : (r + 1) * W ≤ H * W := Nat.mul_le_mul_right W hr
  have h2 : (r + 1) * W = r * W + W := by ring
  omega

/-- Two nested loops over the rows and the columns of a grid whose body writes the
cell `i * W + j`: afterwards the first `H * W` cells hold the written values. -/
theorem forRange_grid {α : Type} (H W : Nat) (f : Nat → Nat → α)
    (body : Nat → Nat → List α → Except Err (List α)) (s0 : List α)
    (hN : H * W ≤ s0.length)
    (hbody : ∀ i j s, i < H → j < W → s.length = s0.length →
      body i j s = .ok (s.set (i * W + j) (f i j))) :
    ∃ s', forRange 0 H (fun i s => forRange 0 W (body i) s) s0 = .ok s' ∧
      s'.length = s0.length ∧
      ∀ k, s'[k]? = if k < H * W then some (f (k / W) (k % W)) else s0[k]? := by
  obtain ⟨s', h1, h2, h3⟩ := @forRange_inv _ (fun i s => forRange 0 W (body i) s)
    (fun r s => s.length = s0.length ∧
      ∀ k, s[k]? = if k < r * W then some (f (k / W) (k % W)) else s0[k]?)
    0 H (Nat.zero_le _) s0 ⟨rfl, fun k => by simp⟩
    (fun r s _ hr ⟨hl, hs⟩ => by
      obtain ⟨u, g1, g2, g3⟩ := @forRange_inv _ (body r)
        (fun c u => u.length = s0.length ∧
          ∀ k, u[k]? = if k < r * W + c then some (f (k / W) (k % W)) else s0[k]?)
        0 W (Nat.zero_le _) s ⟨hl, fun k => by simpa using hs k⟩
        (fun c u _ hc ⟨hul, hu⟩ => by
          refine ⟨_, hbody r c u hr hc hul, by simpa using hul, fun k => ?_⟩
          have hlt := grid_index_lt H W r c hr hc
          rw [List.getElem?_set]
          by_cases hk : r * W + c = k
          · subst hk
            have h4 : r * W + c < u.length := by omega
            have h5 : r * W + c < r * W + (c + 1) := by omega
            simp only [if_true, h4, h5, (grid_index W r c hc).1, (grid_index W r c hc).2]
          · simp only [hk, if_false, hu k]
            have h6 : (k < r * W + (c + 1)) ↔ (k < r * W + c) := by
              constructor <;> intro h7 <;> omega
            simp only [h6])
      refine ⟨u, g1, g2, fun k => ?_⟩
      have e : (r + 1) * W = r * W + W := by ring
      rw [e]; exact g3 k)
  exact ⟨s', h1, h2, h3⟩

theorem fcellAt_eq (aFloatCells : List ℝ) (width height : Int) (hw : 0 < width)
    (hh : 0 < height) (r c : Int) (hr : -height ≤ r) (hc : -width ≤ c) :
    fcellAt aFloatCells width height r c =
      vget aFloatCells ((r % height) * width + (c % width)).toNat := by
  have h1 : (r + height).tmod height = r % height := by
    rw [Int.tmod_eq_emod (by omega) hh.le, Int.add_emod_self]
  have h2 : (c + width).tmod width = c % width := by
    rw [Int.tmod_eq_emod (by omega) hw.le, Int.add_emod_self]
  have h3 : 0 ≤ (r % height) * width + (c % width) :=
    add_nonneg (mul_nonneg (Int.emod_nonneg _ hh.ne') hw.le) (Int.emod_nonneg _ hw.ne')
  simp only [fcellAt, imod_ok hh.ne', imod_ok hw.ne', ok_bind, h1, h2, toIndex_ok h3]


theorem toroidal_index_lt (width height : Int) (hw : 0 < width) (hh : 0 < height) (r c : Int) :
    ((r % height) * width + (c % width)).toNat < (width * height).toNat := by
  have h1 := Int.emod_nonneg r hh.ne'
  have h2 := Int.emod_lt_of_pos r hh
  have h3 := Int.emod_nonneg c hw.ne'
  have h4 := Int.emod_lt_of_pos c hw
  have h5 : (r % height) * width + (c % width) < width * height := by nlinarith
  have h6 : 0 ≤ (r % height) * width + (c % width) := by nlinarith
  omega

theorem vget_potAt (aFloatCells : List ℝ) (world : World) (hw : 0 < world.m_width)
    (hh : 0 < world.m_height)
    (hlen : (world.m_width * world.m_height).toNat ≤ aFloatCells.length) (r c : Int) :
    vget aFloatCells ((r % world.m_height) * world.m_width + (c % world.m_width)).toNat =
      .ok (potAt aFloatCells world r c) := by
  have h := toroidal_index_lt world.m_width world.m_height hw hh r c
  have h2 : ((r % world.m_height) * world.m_width + (c % world.m_width)).toNat
      < aFloatCells.length := by omega
  simp [vget, potAt, List.getD, List.getElem?_eq_getElem h2]

theorem toIndex_cell (width : Int) (hw : 0 ≤ width) (i j : Nat) :
    toIndex ((i : Int) * width + (j : Int)) = .ok (i * width.toNat + j) := by
  have h : 0 ≤ (i : Int) * width + (j : Int) := by positivity
  rw [toIndex_ok h]
  congr 1
  have e : width = (width.toNat : Int) := (Int.toNat_of_nonneg hw).symm
  rw [e]
  simp only [Int.toNat_ofNat]
  norm_cast

theorem grid_size (width height : Int) (hw : 0 ≤ width) (hh : 0 ≤ height) :
    height.toNat * width.toNat = (width * height).toNat := by
  have e1 : width = (width.toNat : Int) := (Int.toNat_of_nonneg hw).symm
  have e2 : height = (height.toNat : Int) := (Int.toNat_of_nonneg hh).symm
  rw [e1, e2]
  simp only [Int.toNat_ofNat]
  rw [mul_comm]
  norm_cast

/-- The second pass of `fillCells` on a potential grid and a cell buffer that hold at
least `width * height` cells. -/
theorem fillCellsBoundary_spec (world : World) (hw : 0 < world.m_width)
    (hh : 0 < world.m_height) (pot : List ℝ) (aCells : List cell)
    (hpot : (world.m_width * world.m_height).toNat ≤ pot.length)
    (hcells : (world.m_width * world.m_height).toNat ≤ aCells.length) :
    ∃ out, fillCellsBoundary pot aCells world = .ok out ∧ out.length = aCells.length ∧
      ∀ k, out[k]? =
        if k < world.m_height.toNat * world.m_width.toNat then
          some (if (potAt pot world (k / world.m_width.toNat : Nat) (k % world.m_width.toNat : Nat) *
                  potAt pot world ((k / world.m_width.toNat : Nat) - 1) (k % world.m_width.toNat : Nat) < 0 ∧
                |potAt pot world (k / world.m_width.toNat : Nat) (k % world.m_width.toNat : Nat)| <
                  |potAt pot world ((k / world.m_width.toNat : Nat) - 1) (k % world.m_width.toNat : Nat)|)
              ∨ (potAt pot world (k / world.m_width.toNat : Nat) (k % world.m_width.toNat : Nat) *
                  potAt pot world ((k / world.m_width.toNat : Nat) + 1) (k % world.m_width.toNat : Nat) < 0 ∧
                |potAt pot world (k / world.m_width.toNat : Nat) (k % world.m_width.toNat : Nat)| <
                  |potAt pot world ((k / world.m_width.toNat : Nat) + 1) (k % world.m_width.toNat : Nat)|)
              ∨ (potAt pot world (k / world.m_width.toNat : Nat) (k % world.m_width.toNat : Nat) *
                  potAt pot world (k / world.m_width.toNat : Nat) ((k % world.m_width.toNat : Nat) - 1) < 0 ∧
                |potAt pot world (k / world.m_width.toNat : Nat) (k % world.m_width.toNat : Nat)| <
                  |potAt pot world (k / world.m_width.toNat : Nat) ((k % world.m_width.toNat : Nat) - 1)|)
              ∨ (potAt pot world (k / world.m_width.toNat : Nat) (k % world.m_width.toNat : Nat) *
                  potAt pot world (k / world.m_width.toNat : Nat) ((k % world.m_width.toNat : Nat) + 1) < 0 ∧
                |potAt pot world (k / world.m_width.toNat : Nat) (k % world.m_width.toNat : Nat)| <
                  |potAt pot world (k / world.m_width.toNat : Nat) ((k % world.m_width.toNat : Nat) + 1)|)
            then '#' else ' ')
        else aCells[k]? := by
  have e0 : (0.0 : ℝ) = 0 := by norm_num
  exact forRange_grid world.m_height.toNat world.m_width.toNat
    (fun i j => if (potAt pot world i j * potAt pot world ((i : Int) - 1) j < 0 ∧
          |potAt pot world i j| < |potAt pot world ((i : Int) - 1) j|)
        ∨ (potAt pot world i j * potAt pot world ((i : Int) + 1) j < 0 ∧
          |potAt pot world i j| < |potAt pot world ((i : Int) + 1) j|)
        ∨ (potAt pot world i j * potAt pot world i ((j : Int) - 1) < 0 ∧
          |potAt pot world i j| < |potAt pot world i ((j : Int) - 1)|)
        ∨ (potAt pot world i j * potAt pot world i ((j : Int) + 1) < 0 ∧
          |potAt pot world i j| < |potAt pot world i ((j : Int) + 1)|)
      then '#' else ' ')
    _ aCells (by rw [grid_size _ _ hw.le hh.le]; exact hcells)
    (fun i j s hi hj hs => by
      have hk : i * world.m_width.toNat + j < s.length := by
        have := grid_index_lt _ _ i j hi hj
        rw [grid_size _ _ hw.le hh.le] at this
        omega
      simp only [fcellAt_eq pot _ _ hw hh ((i : Int) - 1) j (by omega) (by omega),
        fcellAt_eq pot _ _ hw hh ((i : Int) + 1) j (by omega) (by omega),
        fcellAt_eq pot _ _ hw hh i ((j : Int) - 1) (by omega) (by omega),
        fcellAt_eq pot _ _ hw hh i ((j : Int) + 1) (by omega) (by omega),
        fcellAt_eq pot _ _ hw hh i j (by omega) (by omega),
        vget_potAt pot world hw hh hpot, ok_bind, toIndex_cell _ hw.le, vset_ok _ hk, e0])


/-- C2: the boundary rule of `fillCells`.  For every world with `width, height > 0`,
every potential grid and every cell buffer (both holding the `width * height` cells),
the second pass succeeds (its result is the result of `fillCells` whenever the first
pass produced that grid) and writes into every cell `(i, j)` either `'#'` or `' '`,
and `'#'` if and only if one of the four toroidally wrapped neighbours `n` (rows
`i - 1`, `i + 1`, columns `j - 1`, `j + 1`) satisfies `self * n < 0` and
`|self| < |n|`.  In particular, for the adjacent cells `A = 2` and `B = -1` of a
2 × 1 world `B` is marked and `A` is not, and two adjacent cells `a` and `-a` are
both left empty. -/
theorem fillCells_boundary_rule :
    (∀ (world : World) (pot : List ℝ) (aCells : List cell),
      0 < world.m_width → 0 < world.m_height →
      (world.m_width * world.m_height).toNat ≤ pot.length →
      (world.m_width * world.m_height).toNat ≤ aCells.length →
      ∃ out, fillCellsBoundary pot aCells world = .ok out ∧ out.length = aCells.length ∧
        (∀ ps : ParticleSystem ℝ, fillCellsPotential Real.sqrt aCells world ps = .ok pot →
          fillCells Real.sqrt aCells world ps = .ok out) ∧
        ∀ i j : Nat, (i : Int) < world.m_height → (j : Int) < world.m_width →
          (out[((i : Int) * world.m_width + j).toNat]? = some '#' ∨
            out[((i : Int) * world.m_width + j).toNat]? = some ' ') ∧
          (out[((i : Int) * world.m_width + j).toNat]? = some '#' ↔
            ∃ n ∈ [potAt pot world ((i : Int) - 1) j, potAt pot world ((i : Int) + 1) j,
                potAt pot world i ((j : Int) - 1), potAt pot world i ((j : Int) + 1)],
              potAt pot world i j * n < 0 ∧ |potAt pot world i j| < |n|)) ∧
    fillCellsBoundary [(2 : ℝ), -1] [' ', ' '] ⟨2, 1⟩ = .ok [' ', '#'] ∧
    (∀ (a : ℝ) (c0 c1 : cell), fillCellsBoundary [a, -a] [c0, c1] ⟨2, 1⟩ = .ok [' ', ' ']) := by
  refine ⟨?_, ?_, ?_⟩
  · intro world pot aCells hw hh hpot hcells
    obtain ⟨out, h1, h2, h3⟩ := fillCellsBoundary_spec world hw hh pot aCells hpot hcells
    refine ⟨out, h1, h2, fun ps hps => by simp only [fillCells, hps, ok_bind, h1],
      fun i j hi hj => ?_⟩
    have hi' : i < world.m_height.toNat := by omega
    have hj' : j < world.m_width.toNat := by omega
    have hk : ((i : Int) * world.m_width + j).toNat = i * world.m_width.toNat + j := by
      have := toIndex_cell world.m_width hw.le i j
      rw [toIndex_ok (by positivity)] at this
      exact Except.ok.inj this
    have hlt := grid_index_lt _ _ i j hi' hj'
    obtain ⟨g1, g2⟩ := grid_index world.m_width.toNat i j hj'
    rw [hk, h3, if_pos hlt, g1, g2]
    simp only [List.mem_cons, List.mem_singleton, List.not_mem_nil, or_false, exists_eq_or_imp,
      exists_eq_left]
    split_ifs with hc
    · simp [hc]
    · simp [hc]
  · have t1 : Int.tmod 1 2 = 1 := by decide
    have t3 : Int.tmod 3 2 = 1 := by decide
    have t4 : Int.tmod 4 2 = 0 := by decide
    simp [fillCellsBoundary, forRange, forLoop, fcellAt, imod, toIndex, vget, vset, t1, t3, t4]
    norm_num
  · intro a c0 c1
    have t1 : Int.tmod 1 2 = 1 := by decide
    have t3 : Int.tmod 3 2 = 1 := by decide
    have t4 : Int.tmod 4 2 = 0 := by decide
    have e0 : (0.0 : ℝ) = 0 := by norm_num
    simp [fillCellsBoundary, forRange, forLoop, fcellAt, imod, toIndex, vget, vset, t1, t3, t4,
      e0]

/-- C2, witness: a 2 × 1 world with the potentials `2` and `-1`. -/
theorem fillCells_boundary_rule_witness :
    ∃ out, fillCellsBoundary [(2 : ℝ), -1] ['x', 'y'] ⟨2, 1⟩ = .ok out ∧ out.length = 2 := by
  obtain ⟨out, h1, h2, _, _⟩ := fillCells_boundary_rule.1 ⟨2, 1⟩ [(2 : ℝ), -1] ['x', 'y']
    (by decide) (by decide) (by decide) (by decide)
  exact ⟨out, h1, h2⟩


theorem getPotential_eq (pos parPos : vec2 ℝ) (charge : ℝ) :
    getPotential Real.sqrt pos parPos charge = .ok (potentialVal Real.sqrt pos parPos charge) := by
  have h : 0 ≤ (parPos.m_x - pos.m_x) * (parPos.m_x - pos.m_x)
      + (parPos.m_y - pos.m_y) * (parPos.m_y - pos.m_y) := by
    nlinarith [mul_self_nonneg (parPos.m_x - pos.m_x), mul_self_nonneg (parPos.m_y - pos.m_y)]
  have h2 : Real.sqrt ((parPos.m_x - pos.m_x) * (parPos.m_x - pos.m_x)
      + (parPos.m_y - pos.m_y) * (parPos.m_y - pos.m_y)) + 1.0e-6 ≠ 0 := by
    have := Real.sqrt_nonneg ((parPos.m_x - pos.m_x) * (parPos.m_x - pos.m_x)
      + (parPos.m_y - pos.m_y) * (parPos.m_y - pos.m_y))
    have e : (0 : ℝ) < 1.0e-6 := by norm_num
    linarith
  simp only [getPotential, potentialVal, fsqrt_ok Real.sqrt h, ok_bind, fdiv_ok h2]

/-- The potential that the first pass of `fillCells` accumulates for one cell. -/
theorem cellPotential_spec (world : World) (ps : ParticleSystem ℝ)
    (hq : ps.m_aCharges.length = ps.m_aPositions.length) (i j : Nat) :
    cellPotential Real.sqrt world ps i j = .ok
      ((∑ p in Finset.range ps.m_aPositions.length,
          potentialVal Real.sqrt ⟨((j : Int) : ℝ) + 0.5, ((i : Int) : ℝ) + 0.5⟩
            (ps.posAt p) (ps.chargeAt p)) +
        ∑ o in Finset.range 8, ∑ p in Finset.range ps.m_aPositions.length,
          potentialVal Real.sqrt ⟨((j : Int) : ℝ) + 0.5, ((i : Int) : ℝ) + 0.5⟩
            (image world (offsets.getD o (0, 0)) (ps.posAt p)) (ps.chargeAt p)) := by
  have e0 : (0.0 : ℝ) = 0 := by norm_num
  obtain ⟨c1, h1, _, x1⟩ := forRange_accum (fun _ : ℝ => True) (fun (s : ℝ) (_ : Unit) => s)
    (fun parId cell => do
      let pos ← vget ps.m_aPositions parId
      let charge ← vget ps.m_aCharges parId
      let v ← getPotential Real.sqrt ⟨((j : Int) : ℝ) + 0.5, ((i : Int) : ℝ) + 0.5⟩ pos charge
      pure (cell + v))
    (fun p _ => potentialVal Real.sqrt ⟨((j : Int) : ℝ) + 0.5, ((i : Int) : ℝ) + 0.5⟩
      (ps.posAt p) (ps.chargeAt p))
    0 ps.m_aPositions.length
    (fun p s _ hp _ => ⟨_, by
      simp only [vget_ok (getElem?_posAt ps hp), vget_ok (getElem?_chargeAt ps (hq.symm ▸ hp)),
        getPotential_eq, ok_bind, pure_eq_ok], trivial, fun _ => rfl⟩) 0 trivial
  obtain ⟨c2, h2, _, x2⟩ := forRange_accum (fun _ : ℝ => True) (fun (s : ℝ) (_ : Unit) => s)
    (fun offsetId cell => forRange 0 ps.m_aPositions.length (fun parId cell => do
      let pos ← vget ps.m_aPositions parId
      let off ← vget offsets offsetId
      let pos : vec2 ℝ :=
        ⟨pos.m_x + ((off.1 * world.m_width : Int) : ℝ),
         pos.m_y + ((off.2 * world.m_height : Int) : ℝ)⟩
      let charge ← vget ps.m_aCharges parId
      let v ← getPotential Real.sqrt ⟨((j : Int) : ℝ) + 0.5, ((i : Int) : ℝ) + 0.5⟩ pos charge
      pure (cell + v)) cell)
    (fun o _ => ∑ p in Finset.Ico 0 ps.m_aPositions.length,
      potentialVal Real.sqrt ⟨((j : Int) : ℝ) + 0.5, ((i : Int) : ℝ) + 0.5⟩
        (image world (offsets.getD o (0, 0)) (ps.posAt p)) (ps.chargeAt p))
    0 8
    (fun o s _ ho _ => forRange_accum (fun _ : ℝ => True) (fun (s : ℝ) (_ : Unit) => s) _
      (fun p _ => potentialVal Real.sqrt ⟨((j : Int) : ℝ) + 0.5, ((i : Int) : ℝ) + 0.5⟩
        (image world (offsets.getD o (0, 0)) (ps.posAt p)) (ps.chargeAt p))
      0 ps.m_aPositions.length
      (fun p s _ hp _ => ⟨_, by
        have ho' : offsets[o]? = some (offsets.getD o (0, 0)) := by
          have : o < offsets.length := by simpa [offsets] using ho
          simp [List.getD, List.getElem?_eq_getElem this]
        simp only [vget_ok (getElem?_posAt ps hp), vget_ok ho',
          vget_ok (getElem?_chargeAt ps (hq.symm ▸ hp)), getPotential_eq, ok_bind, pure_eq_ok,
          image], trivial, fun _ => rfl⟩) s trivial)
    c1 trivial
  simp only [cellPotential, e0, h1, ok_bind, h2]
  rw [x2 (), x1 (), zero_add]
  simp only [Finset.range_eq_Ico]


/-- The first pass of `fillCells` on a cell buffer that holds at least
`width * height` cells. -/
theorem fillCellsPotential_spec (world : World) (ps : ParticleSystem ℝ)
    (hq : ps.m_aCharges.length = ps.m_aPositions.length) (aCells : List cell)
    (hcells : world.m_height.toNat * world.m_width.toNat ≤ aCells.length) :
    ∃ pot, fillCellsPotential Real.sqrt aCells world ps = .ok pot ∧
      pot.length = aCells.length ∧
      ∀ i j : Nat, i < world.m_height.toNat → j < world.m_width.toNat →
        cellPotential Real.sqrt world ps i j = .ok (pot.getD (i * world.m_width.toNat + j) 0) := by
  obtain ⟨f, hf⟩ : ∃ f : Nat → Nat → ℝ, ∀ i j, cellPotential Real.sqrt world ps i j = .ok (f i j) :=
    ⟨_, fun i j => cellPotential_spec world ps hq i j⟩
  obtain ⟨pot, h1, h2, h3⟩ := forRange_grid world.m_height.toNat world.m_width.toNat f
    (fun i j aFloatCells => do
      let k ← toIndex ((i : Int) * world.m_width + (j : Int))
      let _ ← vget aFloatCells k
      let cell ← cellPotential Real.sqrt world ps i j
      vset aFloatCells k cell)
    (List.replicate aCells.length 0) (by simpa using hcells)
    (fun i j s hi hj hs => by
      have hw : 0 ≤ world.m_width := by omega
      have hk : i * world.m_width.toNat + j < s.length := by
        have := grid_index_lt _ _ i j hi hj
        simp only [List.length_replicate] at hs
        omega
      simp only [toIndex_cell _ hw, ok_bind, vget_ok (List.getElem?_eq_getElem hk), hf,
        vset_ok _ hk])
  refine ⟨pot, h1, by simpa using h2, fun i j hi hj => ?_⟩
  have hlt := grid_index_lt _ _ i j hi hj
  obtain ⟨g1, g2⟩ := grid_index world.m_width.toNat i j hj
  have h4 := h3 (i * world.m_width.toNat + j)
  rw [if_pos hlt, g1, g2] at h4
  rw [hf, List.getD_eq_getElem?_getD, h4, Option.getD_some]

theorem sum_nine_offsets {M : Type} [AddCommMonoid M] (g : ℤ × ℤ → M) :
    ∑ o in ({-1, 0, 1} : Finset ℤ) ×ˢ ({-1, 0, 1} : Finset ℤ), g o
      = g (0, 0) + ∑ o in Finset.range 8, g (offsets.getD o (0, 0)) := by
  rw [sum_offsets, Finset.add_sum_erase _ _ (by decide)]

/-- C3: the potential grid of `fillCells`.  For every world with `width, height > 0`,
every particle system (charge vector as long as the position vector), every cell
buffer holding the `width * height` cells and every cell `(row i, column j)` of the
grid, `getPotential` never fails (its value is `gp`), the first pass succeeds, and the
value it stores for the cell is the sum over all particles `p` and over all nine
offsets `(a, b)` with components in `{-1, 0, 1}` of
`getPotential ((j + 0.5, i + 0.5), (x_p + a * width, y_p + b * height), q_p)`: the
particle is shifted, not the sample point.  The second pass of `fillCells` runs on
that grid. -/
theorem fillCells_potential_grid (world : World) (ps : ParticleSystem ℝ) (aCells : List cell)
    (hw : 0 < world.m_width) (hh : 0 < world.m_height)
    (hq : ps.m_aCharges.length = ps.m_aPositions.length)
    (hcells : (world.m_width * world.m_height).toNat ≤ aCells.length) :
    ∃ (gp : vec2 ℝ → vec2 ℝ → ℝ → ℝ) (pot : List ℝ),
      (∀ s p c, getPotential Real.sqrt s p c = .ok (gp s p c)) ∧
      fillCellsPotential Real.sqrt aCells world ps = .ok pot ∧
      fillCells Real.sqrt aCells world ps = fillCellsBoundary pot aCells world ∧
      pot.length = aCells.length ∧
      ∀ i j : Nat, (i : Int) < world.m_height → (j : Int) < world.m_width →
        pot[((i : Int) * world.m_width + j).toNat]? = some
          (∑ p in Finset.range ps.m_aPositions.length,
            ∑ o in ({-1, 0, 1} : Finset ℤ) ×ˢ ({-1, 0, 1} : Finset ℤ),
              gp ⟨(j : ℝ) + 0.5, (i : ℝ) + 0.5⟩
                ⟨(ps.posAt p).m_x + (o.1 : ℝ) * (world.m_width : ℝ),
                 (ps.posAt p).m_y + (o.2 : ℝ) * (world.m_height : ℝ)⟩ (ps.chargeAt p)) := by
  obtain ⟨pot, h1, h2, h3⟩ := fillCellsPotential_spec world ps hq aCells
    (by rw [grid_size _ _ hw.le hh.le]; exact hcells)
  refine ⟨potentialVal Real.sqrt, pot, getPotential_eq, h1, ?_, h2, fun i j hi hj => ?_⟩
  · simp only [fillCells, h1, ok_bind]
  · have hi' : i < world.m_height.toNat := by omega
    have hj' : j < world.m_width.toNat := by omega
    have hk : ((i : Int) * world.m_width + j).toNat = i * world.m_width.toNat + j := by
      have := toIndex_cell world.m_width hw.le i j
      rw [toIndex_ok (by positivity)] at this
      exact Except.ok.inj this
    have hlt : i * world.m_width.toNat + j < pot.length := by
      have := grid_index_lt _ _ i j hi' hj'
      rw [grid_size _ _ hw.le hh.le] at this
      omega
    have h4 := h3 i j hi' hj'
    rw [cellPotential_spec world ps hq i j] at h4
    rw [hk, List.getElem?_eq_getElem hlt]
    have h5 : pot[i * world.m_width.toNat + j] = pot.getD (i * world.m_width.toNat + j) 0 := by
      simp [List.getD, List.getElem?_eq_getElem hlt]
    rw [h5, ← Except.ok.inj h4]
    simp only [sum_nine_offsets, Finset.sum_add_distrib]
    congr 2
    · refine Finset.sum_congr rfl (fun p _ => ?_)
      simp
    · rw [Finset.sum_comm]
      simp [image]

/-- C3, witness: the two-particle scenario of the specification in a 4 × 3 world. -/
theorem fillCells_potential_grid_witness :
    ∃ pot : List ℝ, fillCellsPotential Real.sqrt (List.replicate 12 ' ') ⟨4, 3⟩ symmetricPair
        = .ok pot ∧ pot.length = 12 := by
  obtain ⟨_, pot, _, h1, _, h2, _⟩ := fillCells_potential_grid ⟨4, 3⟩
    (symmetricPair : ParticleSystem ℝ) (List.replicate 12 ' ') (by decide) (by decide) rfl
    (by decide)
  exact ⟨pot, h1, by simpa using h2⟩


/-! ## Symmetries of the force law and of the net forces -/

theorem forceVal_x (p1 : vec2 ℝ) (c1 : ℝ) (p2 : vec2 ℝ) (c2 : ℝ) :
    (forceVal Real.sqrt p1 c1 p2 c2).m_x =
      forceK Real.sqrt (p1.m_x - p2.m_x) (p1.m_y - p2.m_y) (c1 * c2) := rfl

theorem forceVal_y (p1 : vec2 ℝ) (c1 : ℝ) (p2 : vec2 ℝ) (c2 : ℝ) :
    (forceVal Real.sqrt p1 c1 p2 c2).m_y =
      forceK Real.sqrt (p1.m_y - p2.m_y) (p1.m_x - p2.m_x) (c1 * c2) := by
  simp only [forceVal, forceK]
  rw [add_comm ((p1.m_y - p2.m_y) * (p1.m_y - p2.m_y))]

theorem forceK_neg_left (d e c : ℝ) : forceK Real.sqrt (-d) e c = -forceK Real.sqrt d e c := by
  simp only [forceK, neg_mul_neg]
  ring

theorem forceK_neg_right (d e c : ℝ) : forceK Real.sqrt d (-e) c = forceK Real.sqrt d e c := by
  simp only [forceK, neg_mul_neg]

theorem forceK_zero (e c : ℝ) : forceK Real.sqrt 0 e c = 0 := by
  simp [forceK]

theorem antisymm_sum_zero (g : ℕ → ℕ → ℝ) (hg : ∀ i j, g j i = -g i j) (n : ℕ) :
    ∑ i in Finset.range n, ∑ j in (Finset.range n).erase i, g i j = 0 := by
  have hii : ∀ i, g i i = 0 := fun i => by linarith [hg i i]
  have h1 : ∀ i ∈ Finset.range n, ∑ j in (Finset.range n).erase i, g i j
      = ∑ j in Finset.range n, g i j := by
    intro i hi
    rw [Finset.sum_erase_eq_sub hi, hii, sub_zero]
  rw [Finset.sum_congr rfl h1]
  have h2 : ∑ i in Finset.range n, ∑ j in Finset.range n, g i j
      = -∑ i in Finset.range n, ∑ j in Finset.range n, g i j := by
    conv_lhs => rw [Finset.sum_comm]
    rw [← Finset.sum_neg_distrib]
    refine Finset.sum_congr rfl (fun i _ => ?_)
    rw [← Finset.sum_neg_distrib]
    exact Finset.sum_congr rfl (fun j _ => hg i j)
  linarith

theorem imageForce_antisymm (ps : ParticleSystem ℝ) (world : World) (i j o o' : Nat)
    (hneg : offsets.getD o' (0, 0) = -offsets.getD o (0, 0)) :
    imageForce Real.sqrt ps world j o' i = -imageForce Real.sqrt ps world i o j := by
  simp only [imageForce, forceVal_x, forceVal_y, image, hneg, Prod.neg_mk, Prod.fst_neg,
    Prod.snd_neg, Int.cast_mul, Int.cast_neg, mul_comm (ps.chargeAt j)]
  rw [← forceK_neg_left, ← forceK_neg_right, ← forceK_neg_left (d := (ps.posAt i).m_y - _),
    ← forceK_neg_right (d := -((ps.posAt i).m_y - _))]
  congr 2 <;> ring


theorem offsets_opposite (o : Nat) (ho : o < 4) :
    offsets.getD (o + 4) (0, 0) = -offsets.getD o (0, 0) := by
  interval_cases o <;> decide

theorem image_sum_opposite (ps : ParticleSystem ℝ) (world : World) (o : Nat) (ho : o < 4) :
    ∑ i in Finset.range ps.m_aPositions.length, ∑ j in Finset.range ps.m_aPositions.length,
        imageForce Real.sqrt ps world i (o + 4) j
      = -∑ i in Finset.range ps.m_aPositions.length, ∑ j in Finset.range ps.m_aPositions.length,
        imageForce Real.sqrt ps world i o j := by
  rw [Finset.sum_comm, ← Finset.sum_neg_distrib]
  refine Finset.sum_congr rfl (fun i _ => ?_)
  rw [← Finset.sum_neg_distrib]
  exact Finset.sum_congr rfl
    (fun j _ => imageForce_antisymm ps world i j o (o + 4) (offsets_opposite o ho))

/-- The net forces on the particles add up to zero. -/
theorem netForce_sum_zero (ps : ParticleSystem ℝ) (world : World) :
    ∑ i in Finset.range ps.m_aPositions.length, netForce Real.sqrt ps world i = 0 := by
  simp only [netForce, Finset.sum_add_distrib]
  have h1 : ∑ i in Finset.range ps.m_aPositions.length,
      ∑ j in (Finset.range ps.m_aPositions.length).erase i, pairForce Real.sqrt ps i j = 0 := by
    refine Prod.ext ?_ ?_
    · simp only [Prod.fst_sum, Prod.fst_zero]
      exact antisymm_sum_zero (fun i j => (pairForce Real.sqrt ps i j).1)
        (fun i j => by simp only [pairForce_antisymm ps i j]; rfl) _
    · simp only [Prod.snd_sum, Prod.snd_zero]
      exact antisymm_sum_zero (fun i j => (pairForce Real.sqrt ps i j).2)
        (fun i j => by simp only [pairForce_antisymm ps i j]; rfl) _
  have h2 : ∑ i in Finset.range ps.m_aPositions.length, ∑ o in Finset.range 8,
      ∑ j in Finset.range ps.m_aPositions.length, imageForce Real.sqrt ps world i o j = 0 := by
    have e := fun i => @Finset.sum_comm _ _ _ _ (Finset.range 8)
      (Finset.range ps.m_aPositions.length) (fun o j => imageForce Real.sqrt ps world i o j)
    simp only [e]
    rw [Finset.sum_comm]
    have e2 := fun j => @Finset.sum_comm _ _ _ _ (Finset.range ps.m_aPositions.length)
      (Finset.range 8) (fun i o => imageForce Real.sqrt ps world i o j)
    simp only [e2]
    rw [Finset.sum_comm]
    have e3 := fun o => @Finset.sum_comm _ _ _ _ (Finset.range ps.m_aPositions.length)
      (Finset.range ps.m_aPositions.length) (fun j i => imageForce Real.sqrt ps world i o j)
    simp only [e3]
    have k0 := image_sum_opposite ps world 0 (by decide)
    have k1 := image_sum_opposite ps world 1 (by decide)
    have k2 := image_sum_opposite ps world 2 (by decide)
    have k3 := image_sum_opposite ps world 3 (by decide)
    simp only [Nat.reduceAdd] at k0 k1 k2 k3
    simp only [Finset.sum_range_succ, Finset.range_zero, Finset.sum_empty, zero_add, k0, k1, k2,
      k3]
    abel
  rw [h1, h2, add_zero]


theorem imageForce_snd (ps : ParticleSystem ℝ) (world : World) (i j o : Nat)
    (hy : (ps.posAt i).m_y = (ps.posAt j).m_y) :
    (imageForce Real.sqrt ps world i o j).2 =
      -forceK Real.sqrt (((offsets.getD o (0, 0)).2 : ℝ) * (world.m_height : ℝ))
        ((ps.posAt i).m_x - ((ps.posAt j).m_x +
          ((offsets.getD o (0, 0)).1 : ℝ) * (world.m_width : ℝ)))
        (ps.chargeAt i * ps.chargeAt j) := by
  simp only [imageForce, forceVal_y, image]
  rw [← forceK_neg_left]
  congr 1
  · rw [hy]; push_cast; ring
  · push_cast; ring

theorem imageForce_snd_sum (ps : ParticleSystem ℝ) (world : World) (i j : Nat)
    (hy : (ps.posAt i).m_y = (ps.posAt j).m_y) :
    ∑ o in Finset.range 8, (imageForce Real.sqrt ps world i o j).2 = 0 := by
  simp only [Finset.sum_range_succ, Finset.range_zero, Finset.sum_empty, zero_add,
    imageForce_snd ps world i j _ hy]
  simp [offsets, forceK_neg_left, forceK_zero]

/-- When all particles have the same `y` coordinate, the net force on each of them
has no `y` component. -/
theorem netForce_snd_zero (ps : ParticleSystem ℝ) (world : World)
    (hy : ∀ i j, i < ps.m_aPositions.length → j < ps.m_aPositions.length →
      (ps.posAt i).m_y = (ps.posAt j).m_y)
    (i : Nat) (hi : i < ps.m_aPositions.length) :
    (netForce Real.sqrt ps world i).2 = 0 := by
  simp only [netForce, Prod.snd_add, Prod.snd_sum]
  have h1 : ∑ j in (Finset.range ps.m_aPositions.length).erase i,
      (pairForce Real.sqrt ps i j).2 = 0 := by
    refine Finset.sum_eq_zero (fun j hj => ?_)
    have hj' : j < ps.m_aPositions.length := by
      simpa using (Finset.mem_erase.mp hj).2
    simp only [pairForce, forceVal_y, hy i j hi hj', sub_self, forceK_zero]
  have h2 : ∑ o in Finset.range 8, ∑ j in Finset.range ps.m_aPositions.length,
      (imageForce Real.sqrt ps world i o j).2 = 0 := by
    rw [Finset.sum_comm]
    refine Finset.sum_eq_zero (fun j hj => ?_)
    exact imageForce_snd_sum ps world i j (hy i j hi (by simpa using hj))
  rw [h1, h2, add_zero]

/-- C6: for every world, every `dt` and every two-particle system whose particles
have the same `y` coordinate, the same positive mass and zero initial velocity
(any charges), one `iter` step, periodic images included, succeeds and leaves
velocities `vA`, `vB` with `vA.x = -vB.x` and `vA.y = vB.y = 0`. -/
theorem iter_symmetric_pair (world : World) (dt : ℝ) (pA pB : vec2 ℝ) (qA qB m : ℝ)
    (hy : pA.m_y = pB.m_y) (hm : 0 < m) :
    ∃ (ps' : ParticleSystem ℝ) (vA vB : vec2 ℝ),
      iter Real.sqrt ⟨[pA, pB], [⟨0, 0⟩, ⟨0, 0⟩], [qA, qB], [m, m]⟩ world dt = .ok ps' ∧
      ps'.m_aVelocities = [vA, vB] ∧
      vA.m_x = -vB.m_x ∧ vA.m_y = 0 ∧ vB.m_y = 0 := by
  obtain ⟨ps, hps⟩ : ∃ ps : ParticleSystem ℝ,
      ps = ⟨[pA, pB], [⟨0, 0⟩, ⟨0, 0⟩], [qA, qB], [m, m]⟩ := ⟨_, rfl⟩
  have hn : ps.m_aPositions.length = 2 := by rw [hps]; rfl
  obtain ⟨ps', h1, _, _, _, h5, h6⟩ := iter_spec world dt ps (by rw [hps]; rfl)
    (by rw [hps]; rfl) (by rw [hps]; rfl) (by rw [hps]; simpa using hm)
  have hsame : ∀ i j, i < ps.m_aPositions.length → j < ps.m_aPositions.length →
      (ps.posAt i).m_y = (ps.posAt j).m_y := by
    intro i j hi hj
    rw [hn] at hi hj
    interval_cases i <;> interval_cases j <;> simp [hps, ParticleSystem.posAt, hy]
  have hsum := netForce_sum_zero ps world
  rw [hn, Finset.sum_range_succ, Finset.sum_range_one] at hsum
  have hx : (netForce Real.sqrt ps world 0).1 = -(netForce Real.sqrt ps world 1).1 := by
    have := congrArg Prod.fst hsum
    simp only [Prod.fst_add, Prod.fst_zero] at this
    linarith
  have hy0 := netForce_snd_zero ps world hsame 0 (by omega)
  have hy1 := netForce_snd_zero ps world hsame 1 (by omega)
  obtain ⟨a0, _⟩ := h6 0 (by omega)
  obtain ⟨a1, _⟩ := h6 1 (by omega)
  rw [hn] at h5
  have hm0 : ps.massAt 0 = m := by rw [hps]; rfl
  have hm1 : ps.massAt 1 = m := by rw [hps]; rfl
  have hv0 : ps.velAt 0 = ⟨0, 0⟩ := by rw [hps]; rfl
  have hv1 : ps.velAt 1 = ⟨0, 0⟩ := by rw [hps]; rfl
  rw [hm0, hv0, hy0, hx] at a0
  rw [hm1, hv1, hy1] at a1
  refine ⟨ps', ⟨0 + -(netForce Real.sqrt ps world 1).1 / m * dt, 0 + 0 / m * dt⟩,
    ⟨0 + (netForce Real.sqrt ps world 1).1 / m * dt, 0 + 0 / m * dt⟩, hps ▸ h1, ?_, ?_, ?_, ?_⟩
  · apply List.ext_getElem?
    intro k
    rcases k with _ | _ | k
    · exact a0
    · exact a1
    · simp [h5]
  · simp only [zero_add]; ring
  · simp
  · simp

/-- C6, witness: `width = height = 100`, `A = (40, 50)`, `B = (60, 50)`, both of
charge 5 and mass 1, `dt = 0.1`. -/
theorem iter_symmetric_pair_witness :
    ∃ (ps' : ParticleSystem ℝ) (vA vB : vec2 ℝ),
      iter Real.sqrt symmetricPair ⟨100, 100⟩ 0.1 = .ok ps' ∧
      ps'.m_aVelocities = [vA, vB] ∧
      vA.m_x = -vB.m_x ∧ vA.m_y = 0 ∧ vB.m_y = 0 :=
  iter_symmetric_pair ⟨100, 100⟩ 0.1 ⟨40, 50⟩ ⟨60, 50⟩ 5 5 1 rfl one_pos


/-! ## Further claims about the potential law and the boundary handler -/

/-- C11: for every sample point `s`, particle position `p` and charge `c`,
`getPotential` succeeds with the value `c / (sqrt ((p.x - s.x)^2 + (p.y - s.y)^2) + 1e-6)`,
without any short-range modification; at distance zero the value is `c / 1e-6`. -/
theorem getPotential_value :
    (∀ (s p : vec2 ℝ) (c : ℝ), getPotential Real.sqrt s p c =
      .ok (c / (Real.sqrt ((p.m_x - s.m_x) ^ 2 + (p.m_y - s.m_y) ^ 2) + 1e-6))) ∧
    (∀ (pos : vec2 ℝ) (c : ℝ), getPotential Real.sqrt pos pos c = .ok (c / 1e-6)) := by
  constructor
  · intro s p c
    rw [getPotential_eq]
    have e : (1.0e-6 : ℝ) = 1e-6 := by norm_num
    simp only [potentialVal, pow_two, e]
  · intro pos c
    rw [getPotential_eq]
    have e : (1.0e-6 : ℝ) = 1e-6 := by norm_num
    simp [potentialVal, e]

/-- C20: `regularize` restores the position range for a bounded overshoot only.  For
every world with `width, height > 0` and every particle with
`-(width - 1) ≤ x ≤ 2 * (width - 1)` and `-(height - 1) ≤ y ≤ 2 * (height - 1)` the
position after the call satisfies `0 ≤ x ≤ width - 1` and `0 ≤ y ≤ height - 1`; and a
particle at `x = 2 * (width - 1) + 1 = 199` in a world of width 100 ends at
`x = 100`, outside `[0, 99]`. -/
theorem regularize_bounded_overshoot :
    (∀ (world : World) (ps : ParticleSystem ℝ), 0 < world.m_width → 0 < world.m_height →
      ps.m_aVelocities.length = ps.m_aPositions.length →
      ∃ ps', regularize ps world = .ok ps' ∧
        ∀ (i : Nat) (p : vec2 ℝ), ps.m_aPositions[i]? = some p →
          -((world.m_width : ℝ) - 1) ≤ p.m_x → p.m_x ≤ 2 * ((world.m_width : ℝ) - 1) →
          -((world.m_height : ℝ) - 1) ≤ p.m_y → p.m_y ≤ 2 * ((world.m_height : ℝ) - 1) →
          ∃ p' : vec2 ℝ, ps'.m_aPositions[i]? = some p' ∧
            0 ≤ p'.m_x ∧ p'.m_x ≤ (world.m_width : ℝ) - 1 ∧
            0 ≤ p'.m_y ∧ p'.m_y ≤ (world.m_height : ℝ) - 1) ∧
    (regularize (⟨[⟨2 * (100 - 1) + 1, 0⟩], [⟨0, 0⟩], [1], [1]⟩ : ParticleSystem ℝ) ⟨100, 100⟩
        = .ok ⟨[⟨100, 0⟩], [⟨0, 0⟩], [1], [1]⟩ ∧
      ¬ ((100 : ℝ) ≤ 100 - 1)) := by
  refine ⟨?_, ?_, by norm_num⟩
  · intro world ps hw hh hlen
    obtain ⟨ps', h1, _, _, _, _, h⟩ := regularize_spec world ps hlen
    refine ⟨ps', h1, fun i p hp hx1 hx2 hy1 hy2 => ?_⟩
    have hi : i < ps.m_aVelocities.length := by
      rw [hlen]; exact lt_length_of_getElem? hp
    obtain ⟨h2, _⟩ := h i p _ hp (List.getElem?_eq_getElem hi)
    have hw' : (1 : ℝ) ≤ (world.m_width : ℝ) := by exact_mod_cast hw
    have hh' : (1 : ℝ) ≤ (world.m_height : ℝ) := by exact_mod_cast hh
    refine ⟨_, h2, ?_, ?_, ?_, ?_⟩ <;> simp only [wrapCoord_eq] <;> split_ifs <;> linarith
  · simp [regularize, forRange, forLoop, vget, vset]
    norm_num

/-- C20, witness: a particle at `(-0.5, 150)` in a 100 × 100 world ends inside the
domain. -/
theorem regularize_bounded_overshoot_witness :
    ∃ ps', regularize (⟨[⟨-0.5, 150⟩], [⟨0, 0⟩], [1], [1]⟩ : ParticleSystem ℝ) ⟨100, 100⟩ = .ok ps' ∧
      ∃ p' : vec2 ℝ, ps'.m_aPositions[0]? = some p' ∧
        0 ≤ p'.m_x ∧ p'.m_x ≤ ((100 : Int) : ℝ) - 1 ∧ 0 ≤ p'.m_y ∧ p'.m_y ≤ ((100 : Int) : ℝ) - 1 := by
  obtain ⟨ps', h1, h⟩ := regularize_bounded_overshoot.1 ⟨100, 100⟩
    (⟨[⟨-0.5, 150⟩], [⟨0, 0⟩], [1], [1]⟩ : ParticleSystem ℝ) (by decide) (by decide) rfl
  exact ⟨ps', h1, h 0 ⟨-0.5, 150⟩ rfl (by norm_num) (by norm_num) (by norm_num) (by norm_num)⟩


/-! ## Further claims about the field sampler -/

/-- The cells that the second pass of `fillCells` writes are a function of the
potential grid and the world only. -/
theorem fillCellsBoundary_fn (world : World) (hw : 0 < world.m_width)
    (hh : 0 < world.m_height) (pot : List ℝ)
    (hpot : (world.m_width * world.m_height).toNat ≤ pot.length) :
    ∃ g : Nat → cell, (∀ k, g k = ' ' ∨ g k = '#') ∧
      ∀ aCells : List cell, (world.m_width * world.m_height).toNat ≤ aCells.length →
        ∃ out, fillCellsBoundary pot aCells world = .ok out ∧ out.length = aCells.length ∧
          ∀ k, out[k]? =
            if k < world.m_height.toNat * world.m_width.toNat then some (g k) else aCells[k]? := by
  refine ⟨_, ?_, fun aCells hc => fillCellsBoundary_spec world hw hh pot aCells hpot hc⟩
  intro k
  split_ifs
  · exact Or.inr rfl
  · exact Or.inl rfl

theorem fillCellsPotential_length_only (world : World) (ps : ParticleSystem ℝ)
    (cells1 cells2 : List cell) (h : cells1.length = cells2.length) :
    fillCellsPotential Real.sqrt cells1 world ps = fillCellsPotential Real.sqrt cells2 world ps := by
  simp only [fillCellsPotential, h]

/-- C12: `fillCells` rebuilds the cell grid from scratch.  For every world with
`width, height > 0`, every particle system (charge vector as long as the position
vector) and any two input buffers of size `width * height`, the two calls succeed with
the same output; applying `fillCells` to its own output returns that output again;
and every output cell is `' '` or `'#'`. -/
theorem fillCells_rebuilds (world : World) (ps : ParticleSystem ℝ) (cells1 cells2 : List cell)
    (hw : 0 < world.m_width) (hh : 0 < world.m_height)
    (hq : ps.m_aCharges.length = ps.m_aPositions.length)
    (h1 : cells1.length = (world.m_width * world.m_height).toNat)
    (h2 : cells2.length = (world.m_width * world.m_height).toNat) :
    ∃ out, fillCells Real.sqrt cells1 world ps = .ok out ∧
      fillCells Real.sqrt cells2 world ps = .ok out ∧
      fillCells Real.sqrt out world ps = .ok out ∧
      out.length = (world.m_width * world.m_height).toNat ∧
      ∀ c ∈ out, c = ' ' ∨ c = '#' := by
  have hsz := grid_size world.m_width world.m_height hw.le hh.le
  obtain ⟨pot, p1, p2, _⟩ := fillCellsPotential_spec world ps hq cells1 (by omega)
  obtain ⟨g, hg, hfill⟩ := fillCellsBoundary_fn world hw hh pot (by omega)
  have key : ∀ cells : List cell, cells.length = (world.m_width * world.m_height).toNat →
      ∃ out, fillCells Real.sqrt cells world ps = .ok out ∧
        out.length = (world.m_width * world.m_height).toNat ∧
        ∀ k, out[k]? = if k < world.m_height.toNat * world.m_width.toNat then some (g k)
          else none := by
    intro cells hc
    obtain ⟨out, o1, o2, o3⟩ := hfill cells (by omega)
    refine ⟨out, ?_, by omega, fun k => ?_⟩
    · simp only [fillCells, fillCellsPotential_length_only world ps cells cells1 (by omega), p1,
        ok_bind, o1]
    · rw [o3 k]
      split_ifs with hk
      · rfl
      · exact List.getElem?_eq_none (by omega)
  obtain ⟨out1, a1, a2, a3⟩ := key cells1 h1
  obtain ⟨out2, b1, _, b3⟩ := key cells2 h2
  obtain ⟨out3, c1, _, c3⟩ := key out1 a2
  have e2 : out2 = out1 := List.ext_getElem? (fun k => by rw [a3, b3])
  have e3 : out3 = out1 := List.ext_getElem? (fun k => by rw [a3, c3])
  refine ⟨out1, a1, e2 ▸ b1, ?_, a2, fun c hc => ?_⟩
  · rw [c1, e3]
  · obtain ⟨k, hk, rfl⟩ := List.getElem_of_mem hc
    have h4 := a3 k
    rw [List.getElem?_eq_getElem hk] at h4
    split_ifs at h4
    rw [Option.some.inj h4]; exact hg k

/-- C12, witness: the two-particle scenario of the specification in a 4 × 3 world,
with two different input buffers. -/
theorem fillCells_rebuilds_witness :
    ∃ out, fillCells Real.sqrt (List.replicate 12 'x') ⟨4, 3⟩ (symmetricPair : ParticleSystem ℝ)
        = .ok out ∧
      fillCells Real.sqrt (List.replicate 12 '#') ⟨4, 3⟩ symmetricPair = .ok out ∧
      fillCells Real.sqrt out ⟨4, 3⟩ symmetricPair = .ok out := by
  obtain ⟨out, h1, h2, h3, _⟩ := fillCells_rebuilds ⟨4, 3⟩ (symmetricPair : ParticleSystem ℝ)
    (List.replicate 12 'x') (List.replicate 12 '#') (by decide) (by decide) rfl (by decide)
    (by decide)
  exact ⟨out, h1, h2, h3⟩


theorem potentialVal_sign (sgn : ℝ) (s p : vec2 ℝ) (c : ℝ) (hc : 0 ≤ sgn * c) :
    0 ≤ sgn * potentialVal Real.sqrt s p c := by
  have hd : 0 < Real.sqrt ((p.m_x - s.m_x) * (p.m_x - s.m_x) + (p.m_y - s.m_y) * (p.m_y - s.m_y))
      + 1.0e-6 := by
    have := Real.sqrt_nonneg ((p.m_x - s.m_x) * (p.m_x - s.m_x) + (p.m_y - s.m_y) * (p.m_y - s.m_y))
    have e : (0 : ℝ) < 1.0e-6 := by norm_num
    linarith
  simp only [potentialVal]
  rw [← mul_div_assoc]
  exact div_nonneg hc hd.le

theorem chargeAt_mem (ps : ParticleSystem ℝ) (hq : ps.m_aCharges.length = ps.m_aPositions.length)
    {p : Nat} (hp : p ∈ Finset.range ps.m_aPositions.length) : ps.chargeAt p ∈ ps.m_aCharges :=
  List.getElem?_mem (getElem?_chargeAt ps (by rw [hq]; simpa using hp))

/-- When all charges have the sign `sgn`, so has every sampled potential. -/
theorem cellPotential_sign (world : World) (ps : ParticleSystem ℝ)
    (hq : ps.m_aCharges.length = ps.m_aPositions.length) (sgn : ℝ)
    (hs : ∀ q ∈ ps.m_aCharges, 0 ≤ sgn * q) (i j : Nat) (v : ℝ)
    (hv : cellPotential Real.sqrt world ps i j = .ok v) : 0 ≤ sgn * v := by
  rw [cellPotential_spec world ps hq i j] at hv
  rw [← Except.ok.inj hv, mul_add, Finset.mul_sum, Finset.mul_sum]
  refine add_nonneg (Finset.sum_nonneg (fun p hp => ?_)) (Finset.sum_nonneg (fun o _ => ?_))
  · exact potentialVal_sign sgn _ _ _ (hs _ (chargeAt_mem ps hq hp))
  · rw [Finset.mul_sum]
    exact Finset.sum_nonneg
      (fun p hp => potentialVal_sign sgn _ _ _ (hs _ (chargeAt_mem ps hq hp)))

theorem potAt_sign (world : World) (hw : 0 < world.m_width) (hh : 0 < world.m_height)
    (pot : List ℝ) (sgn : ℝ)
    (hpot : ∀ i j : Nat, i < world.m_height.toNat → j < world.m_width.toNat →
      0 ≤ sgn * pot.getD (i * world.m_width.toNat + j) 0) (r c : Int) :
    0 ≤ sgn * potAt pot world r c := by
  have h1 := Int.emod_nonneg r hh.ne'
  have h2 := Int.emod_lt_of_pos r hh
  have h3 := Int.emod_nonneg c hw.ne'
  have h4 := Int.emod_lt_of_pos c hw
  have e : ((r % world.m_height) * world.m_width + (c % world.m_width)).toNat
      = (r % world.m_height).toNat * world.m_width.toNat + (c % world.m_width).toNat := by
    have := toIndex_cell world.m_width hw.le (r % world.m_height).toNat (c % world.m_width).toNat
    rw [Int.toNat_of_nonneg h1, Int.toNat_of_nonneg h3, toIndex_ok (by positivity)] at this
    exact Except.ok.inj this
  rw [potAt, e]
  exact hpot _ _ (by omega) (by omega)

theorem mul_nonneg_of_sign (sgn a b : ℝ) (hsgn : sgn * sgn = 1) (ha : 0 ≤ sgn * a)
    (hb : 0 ≤ sgn * b) : ¬ (a * b < 0 ∧ |a| < |b|) := by
  intro h
  have h1 : a * b = (sgn * a) * (sgn * b) := by
    calc a * b = (sgn * sgn) * (a * b) := by rw [hsgn, one_mul]
      _ = (sgn * a) * (sgn * b) := by ring
  have h2 := mul_nonneg ha hb
  linarith [h.1]

/-- With charges of one sign `fillCells` leaves every cell empty. -/
theorem fillCells_sign (world : World) (ps : ParticleSystem ℝ) (aCells : List cell)
    (hw : 0 < world.m_width) (hh : 0 < world.m_height)
    (hq : ps.m_aCharges.length = ps.m_aPositions.length)
    (hcells : aCells.length = (world.m_width * world.m_height).toNat)
    (sgn : ℝ) (hsgn : sgn * sgn = 1) (hs : ∀ q ∈ ps.m_aCharges, 0 ≤ sgn * q) :
    fillCells Real.sqrt aCells world ps =
      .ok (List.replicate (world.m_width * world.m_height).toNat ' ') := by
  have hsz := grid_size world.m_width world.m_height hw.le hh.le
  obtain ⟨pot, p1, p2, p3⟩ := fillCellsPotential_spec world ps hq aCells (by omega)
  have hp : ∀ r c : Int, 0 ≤ sgn * potAt pot world r c :=
    potAt_sign world hw hh pot sgn
      (fun i j hi hj => cellPotential_sign world ps hq sgn hs i j _ (p3 i j hi hj))
  obtain ⟨out, o1, o2, o3⟩ := fillCellsBoundary_spec world hw hh pot aCells (by omega)
    (by omega)
  simp only [fillCells, p1, ok_bind, o1]
  congr 1
  apply List.ext_getElem?
  intro k
  rw [o3 k, List.getElem?_replicate, ← hsz]
  split_ifs with hk hc
  · exfalso
    rcases hc with hc | hc | hc | hc
    all_goals exact mul_nonneg_of_sign sgn _ _ hsgn (hp _ _) (hp _ _) hc
  · rfl
  · exact List.getElem?_eq_none (by omega)


/-! ## Start-up population -/

theorem mainPopulate_fold {F : Type} [LinearOrderedField F] (N : Int) (charge : F)
    (points : Nat → vec2 F) (n : Nat) :
    (List.range n).foldl (fun parSys i =>
      parSys.addParticle (points i) 1.0 (charge * (if (i : Int) > N.tdiv 2 then 1.0 else -1.0)))
      (⟨[], [], [], []⟩ : ParticleSystem F)
    = ⟨(List.range n).map points, (List.range n).map (fun _ => ⟨0.0, 0.0⟩),
       (List.range n).map (fun i : Nat => charge * (if (i : Int) > N.tdiv 2 then 1.0 else -1.0)),
       (List.range n).map (fun _ => 1.0)⟩ := by
  induction n with
  | zero => rfl
  | succ n ih =>
    rw [List.range_succ, List.foldl_append, ih]
    simp [ParticleSystem.addParticle]

/-- The particle system that the start-up loop of `main` builds. -/
theorem mainPopulate_eq {F : Type} [LinearOrderedField F] (N : Int) (charge : F)
    (points : Nat → vec2 F) :
    mainPopulate N charge points =
      ⟨(List.range N.toNat).map points, (List.range N.toNat).map (fun _ => ⟨0.0, 0.0⟩),
       (List.range N.toNat).map
         (fun i : Nat => charge * (if (i : Int) > N.tdiv 2 then 1.0 else -1.0)),
       (List.range N.toNat).map (fun _ => 1.0)⟩ :=
  mainPopulate_fold N charge points N.toNat

/-- C14, the code at a failing input: for the particle count `N = 4` and the charge
magnitude 1 the start-up loop adds four particles of mass 1 and zero velocity, three
of charge `-1` (the indices 0, 1, 2, none of which exceeds `N / 2 = 2`) and one of
charge `+1`. -/
theorem mainPopulate_four (points : Nat → vec2 ℝ) :
    (mainPopulate 4 (1 : ℝ) points).m_aCharges = [-1, -1, -1, 1] ∧
      (mainPopulate 4 (1 : ℝ) points).m_aMasses = [1, 1, 1, 1] ∧
      (mainPopulate 4 (1 : ℝ) points).m_aVelocities = [⟨0, 0⟩, ⟨0, 0⟩, ⟨0, 0⟩, ⟨0, 0⟩] ∧
      (mainPopulate 4 (1 : ℝ) points).m_aPositions = [points 0, points 1, points 2, points 3] := by
  have t : Int.tdiv 4 2 = 2 := by decide
  rw [mainPopulate_eq]
  simp [List.range_succ, t]
  norm_num

/-- C19: with charges of one sign `fillCells` draws no boundary.  For every world with
`width, height > 0`, every particle system (charge vector as long as the position
vector) whose charges are all `≥ 0` or all `≤ 0` and every cell buffer of size
`width * height`, `fillCells` succeeds and every cell of the grid is `' '`.  The
start-up loop of `main` builds such a system for every particle count `N ≤ 2`: all
its charges are negative. -/
theorem fillCells_same_sign_empty :
    (∀ (world : World) (ps : ParticleSystem ℝ) (aCells : List cell),
      0 < world.m_width → 0 < world.m_height →
      ps.m_aCharges.length = ps.m_aPositions.length →
      aCells.length = (world.m_width * world.m_height).toNat →
      ((∀ q ∈ ps.m_aCharges, 0 ≤ q) ∨ (∀ q ∈ ps.m_aCharges, q ≤ 0)) →
      fillCells Real.sqrt aCells world ps =
        .ok (List.replicate (world.m_width * world.m_height).toNat ' ')) ∧
    (∀ (N : Int) (c : ℝ) (points : Nat → vec2 ℝ), N ≤ 2 → 0 < c →
      ∀ q ∈ (mainPopulate N c points).m_aCharges, q < 0) := by
  constructor
  · intro world ps aCells hw hh hq hcells hsign
    rcases hsign with hs | hs
    · exact fillCells_sign world ps aCells hw hh hq hcells 1 (by norm_num)
        (fun q hq' => by simpa using hs q hq')
    · exact fillCells_sign world ps aCells hw hh hq hcells (-1) (by norm_num)
        (fun q hq' => by have := hs q hq'; linarith)
  · intro N c points hN hc q hq
    rw [mainPopulate_eq] at hq
    simp only [List.mem_map, List.mem_range] at hq
    obtain ⟨i, hi, rfl⟩ := hq
    have hi' : (i : Int) < N := by omega
    have h2 : ¬ ((i : Int) > N.tdiv 2) := by
      have h3 : N = 1 ∨ N = 2 := by omega
      rcases h3 with rfl | rfl
      · have t : Int.tdiv 1 2 = 0 := by decide
        rw [t]
        omega
      · have t : Int.tdiv 2 2 = 1 := by decide
        rw [t]
        omega
    rw [if_neg h2]
    have e : (-1.0 : ℝ) = -1 := by norm_num
    rw [e]
    linarith

/-- C19, witness: two particles of charge `-5` in a 4 × 3 world. -/
theorem fillCells_same_sign_empty_witness :
    fillCells Real.sqrt (List.replicate 12 '#') ⟨4, 3⟩
        (⟨[⟨1, 1⟩, ⟨3, 2⟩], [⟨0, 0⟩, ⟨0, 0⟩], [-5, -5], [1, 1]⟩ : ParticleSystem ℝ)
      = .ok (List.replicate 12 ' ') :=
  fillCells_same_sign_empty.1 ⟨4, 3⟩ ⟨[⟨1, 1⟩, ⟨3, 2⟩], [⟨0, 0⟩, ⟨0, 0⟩], [-5, -5], [1, 1]⟩
    (List.replicate 12 '#') (by decide) (by decide) rfl (by decide)
    (Or.inr (fun q hq => by
      simp only [List.mem_cons, List.mem_singleton, List.not_mem_nil, or_false] at hq
      rcases hq with rfl | rfl <;> norm_num))


/-! ## Buffer accesses of the field sampler -/

theorem wrapped_index (pot : List ℝ) (width height : Int) (hw : 0 < width) (hh : 0 < height)
    (hpot : (width * height).toNat ≤ pot.length) (r c : Int) (hr : -height ≤ r)
    (hc : -width ≤ c) :
    0 ≤ (r + height).tmod height * width + (c + width).tmod width ∧
      (r + height).tmod height * width + (c + width).tmod width < width * height ∧
      (r + height).tmod height * width + (c + width).tmod width
        = (r % height) * width + (c % width) ∧
      ∃ v, fcellAt pot width height r c = .ok v ∧
        pot[((r + height).tmod height * width + (c + width).tmod width).toNat]? = some v := by
  have h1 : (r + height).tmod height = r % height := by
    rw [Int.tmod_eq_emod (by omega) hh.le, Int.add_emod_self]
  have h2 : (c + width).tmod width = c % width := by
    rw [Int.tmod_eq_emod (by omega) hw.le, Int.add_emod_self]
  have h3 : 0 ≤ (r % height) * width + (c % width) :=
    add_nonneg (mul_nonneg (Int.emod_nonneg _ hh.ne') hw.le) (Int.emod_nonneg _ hw.ne')
  have h4 := toroidal_index_lt width height hw hh r c
  have h5 : ((r % height) * width + (c % width)).toNat < pot.length := by omega
  rw [h1, h2]
  refine ⟨h3, by omega, rfl, pot[((r % height) * width + (c % width)).toNat], ?_, ?_⟩
  · rw [fcellAt_eq pot width height hw hh r c hr hc]
    exact vget_ok (List.getElem?_eq_getElem h5)
  · exact List.getElem?_eq_getElem h5

theorem fillCells_ok (world : World) (ps : ParticleSystem ℝ) (aCells : List cell)
    (hw : 0 < world.m_width) (hh : 0 < world.m_height)
    (hq : ps.m_aCharges.length = ps.m_aPositions.length)
    (hcells : aCells.length = (world.m_width * world.m_height).toNat) :
    ∃ out, fillCells Real.sqrt aCells world ps = .ok out := by
  have hsz := grid_size world.m_width world.m_height hw.le hh.le
  obtain ⟨pot, p1, p2, _⟩ := fillCellsPotential_spec world ps hq aCells (by omega)
  obtain ⟨out, o1, _⟩ := fillCellsBoundary_spec world hw hh pot aCells (by omega) (by omega)
  exact ⟨out, by simp only [fillCells, p1, ok_bind, o1]⟩

/-- C16: every buffer access of `fillCells` is in bounds.  For every world with
`width, height > 0`, every particle system whose vectors have the same length and
every cell buffer of size `width * height`, `fillCells` succeeds (no access falls
outside a vector).  For every potential buffer of that size, every cell
`0 ≤ i < height`, `0 ≤ j < width` and every `(r, c)` among `(i - 1, j)`, `(i + 1, j)`,
`(i, j - 1)`, `(i, j + 1)`, `(i, j)`, the index
`((r + height) % height) * width + ((c + width) % width)` computed with the C++
remainder lies in `[0, width * height)`, equals the index of the toroidal cell
`(r mod height, c mod width)`, and the read `fcellAt (r, c)` returns the value stored
there; the unwrapped index `i * width + j` lies in `[0, width * height)` as well. -/
theorem fillCells_in_bounds (world : World) (ps : ParticleSystem ℝ) (aCells : List cell)
    (hw : 0 < world.m_width) (hh : 0 < world.m_height) (hsame : ps.sameLength)
    (hcells : aCells.length = (world.m_width * world.m_height).toNat) :
    (∃ out, fillCells Real.sqrt aCells world ps = .ok out) ∧
    ∀ pot : List ℝ, pot.length = aCells.length →
      ∀ i j : Nat, (i : Int) < world.m_height → (j : Int) < world.m_width →
        (0 ≤ (i : Int) * world.m_width + j ∧
          (i : Int) * world.m_width + j < world.m_width * world.m_height) ∧
        ∀ rc ∈ [((i : Int) - 1, (j : Int)), ((i : Int) + 1, (j : Int)),
            ((i : Int), (j : Int) - 1), ((i : Int), (j : Int) + 1), ((i : Int), (j : Int))],
          0 ≤ (rc.1 + world.m_height).tmod world.m_height * world.m_width
              + (rc.2 + world.m_width).tmod world.m_width ∧
          (rc.1 + world.m_height).tmod world.m_height * world.m_width
              + (rc.2 + world.m_width).tmod world.m_width < world.m_width * world.m_height ∧
          (rc.1 + world.m_height).tmod world.m_height * world.m_width
              + (rc.2 + world.m_width).tmod world.m_width
            = (rc.1 % world.m_height) * world.m_width + (rc.2 % world.m_width) ∧
          ∃ v, fcellAt pot world.m_width world.m_height rc.1 rc.2 = .ok v ∧
            pot[((rc.1 + world.m_height).tmod world.m_height * world.m_width
              + (rc.2 + world.m_width).tmod world.m_width).toNat]? = some v := by
  constructor
  · exact fillCells_ok world ps aCells hw hh hsame.2.1 hcells
  · intro pot hpot i j hi hj
    constructor
    · constructor
      · positivity
      · have h1 : (i : Int) + 1 ≤ world.m_height := by omega
        nlinarith
    · intro rc hrc
      simp only [List.mem_cons, List.mem_singleton, List.not_mem_nil, or_false] at hrc
      rcases hrc with rfl | rfl | rfl | rfl | rfl <;>
        exact wrapped_index pot _ _ hw hh (by omega) _ _ (by simp only []; omega)
          (by simp only []; omega)

/-- C16, witness: the two-particle scenario of the specification in a 4 × 1 world
(degenerate height). -/
theorem fillCells_in_bounds_witness :
    ∃ out, fillCells Real.sqrt (List.replicate 4 ' ') ⟨4, 1⟩ (symmetricPair : ParticleSystem ℝ)
      = .ok out :=
  (fillCells_in_bounds ⟨4, 1⟩ (symmetricPair : ParticleSystem ℝ) (List.replicate 4 ' ')
    (by decide) (by decide) ⟨rfl, rfl, rfl⟩ (by decide)).1


/-! ## Conservation of momentum -/

theorem forceAt_cons_succ (a : Force ℝ) (l : List (Force ℝ)) (i : Nat) :
    forceAt (a :: l) (i + 1) = forceAt l i := by
  simp [forceAt]

theorem list_sum_forceAt (l : List (Force ℝ)) :
    ((l.map (fun f => f.m_x)).sum, (l.map (fun f => f.m_y)).sum)
      = ∑ i in Finset.range l.length, forceAt l i := by
  induction l with
  | nil => simp
  | cons a l ih =>
    rw [List.length_cons, Finset.sum_range_succ']
    simp only [forceAt_cons_succ, ← ih]
    simp [forceAt]
    exact ⟨add_comm _ _, add_comm _ _⟩

theorem velAt_of_getElem? (ps : ParticleSystem ℝ) (i : Nat) (v : vec2 ℝ)
    (h : ps.m_aVelocities[i]? = some v) : ps.velAt i = v := by
  simp [ParticleSystem.velAt, List.getD_eq_getElem?_getD, h]

/-- C17: `iter` conserves the total momentum.  For every world, every `dt` and every
particle system whose vectors have the same length and whose masses are positive,
the force accumulation succeeds and the accumulators add up to the zero vector, and
`iter` succeeds with the sum over the particles of mass times velocity unchanged in
both components. -/
theorem iter_conserves_momentum (world : World) (dt : ℝ) (ps : ParticleSystem ℝ)
    (hsame : ps.sameLength) (hpos : ∀ m ∈ ps.m_aMasses, 0 < m) :
    ∃ (aForces : List (Force ℝ)) (ps' : ParticleSystem ℝ),
      iterForces Real.sqrt ps world = .ok aForces ∧
      (aForces.map (fun f => f.m_x)).sum = 0 ∧ (aForces.map (fun f => f.m_y)).sum = 0 ∧
      iter Real.sqrt ps world dt = .ok ps' ∧
      ∑ i in Finset.range ps.m_aPositions.length, ps'.massAt i * (ps'.velAt i).m_x
        = ∑ i in Finset.range ps.m_aPositions.length, ps.massAt i * (ps.velAt i).m_x ∧
      ∑ i in Finset.range ps.m_aPositions.length, ps'.massAt i * (ps'.velAt i).m_y
        = ∑ i in Finset.range ps.m_aPositions.length, ps.massAt i * (ps.velAt i).m_y := by
  obtain ⟨hv, hq, hm⟩ := hsame
  obtain ⟨aForces, f1, f2, f3⟩ := iterForces_spec ps world hq
  obtain ⟨ps', h1, _, h3, _, _, h6⟩ := iter_spec world dt ps hv hq hm hpos
  have hzero := netForce_sum_zero ps world
  have hsum : ∑ i in Finset.range aForces.length, forceAt aForces i = 0 := by
    rw [f2, ← hzero]
    exact Finset.sum_congr rfl (fun i hi => f3 i (by simpa using hi))
  have hlist := list_sum_forceAt aForces
  rw [hsum] at hlist
  have hx0 : ∑ i in Finset.range ps.m_aPositions.length, (netForce Real.sqrt ps world i).1 = 0 := by
    rw [← Prod.fst_sum, hzero]; rfl
  have hy0 : ∑ i in Finset.range ps.m_aPositions.length, (netForce Real.sqrt ps world i).2 = 0 := by
    rw [← Prod.snd_sum, hzero]; rfl
  have hmass : ∀ i, ps'.massAt i = ps.massAt i := fun i => by
    simp only [ParticleSystem.massAt, h3]
  have hterm : ∀ i ∈ Finset.range ps.m_aPositions.length,
      ps'.massAt i * (ps'.velAt i).m_x
        = ps.massAt i * (ps.velAt i).m_x + (netForce Real.sqrt ps world i).1 * dt ∧
      ps'.massAt i * (ps'.velAt i).m_y
        = ps.massAt i * (ps.velAt i).m_y + (netForce Real.sqrt ps world i).2 * dt := by
    intro i hi
    have hi' : i < ps.m_aPositions.length := by simpa using hi
    have hm0 : ps.massAt i ≠ 0 :=
      (hpos _ (List.getElem?_mem (getElem?_massAt ps (hm.symm ▸ hi')))).ne'
    rw [hmass, velAt_of_getElem? ps' i _ (h6 i hi').1]
    constructor <;> field_simp <;> ring
  refine ⟨aForces, ps', f1, (Prod.ext_iff.mp hlist).1, (Prod.ext_iff.mp hlist).2, h1, ?_, ?_⟩
  · rw [Finset.sum_congr rfl (fun i hi => (hterm i hi).1), Finset.sum_add_distrib,
      ← Finset.sum_mul, hx0, zero_mul, add_zero]
  · rw [Finset.sum_congr rfl (fun i hi => (hterm i hi).2), Finset.sum_add_distrib,
      ← Finset.sum_mul, hy0, zero_mul, add_zero]

/-- C17, witness: three particles of different masses and charges, with initial
velocities, in a 100 × 100 world. -/
theorem iter_conserves_momentum_witness :
    ∃ ps' : ParticleSystem ℝ,
      iter Real.sqrt ⟨[⟨40, 50⟩, ⟨60, 50⟩, ⟨10, 20⟩], [⟨1, 0⟩, ⟨0, 2⟩, ⟨0, 0⟩], [5, -5, 2],
          [1, 2, 3]⟩ ⟨100, 100⟩ 0.1 = .ok ps' ∧
      ∑ i in Finset.range 3, ps'.massAt i * (ps'.velAt i).m_x
        = ∑ i in Finset.range 3, (⟨[⟨40, 50⟩, ⟨60, 50⟩, ⟨10, 20⟩], [⟨1, 0⟩, ⟨0, 2⟩, ⟨0, 0⟩],
            [5, -5, 2], [1, 2, 3]⟩ : ParticleSystem ℝ).massAt i *
          ((⟨[⟨40, 50⟩, ⟨60, 50⟩, ⟨10, 20⟩], [⟨1, 0⟩, ⟨0, 2⟩, ⟨0, 0⟩],
            [5, -5, 2], [1, 2, 3]⟩ : ParticleSystem ℝ).velAt i).m_x := by
  obtain ⟨_, ps', _, _, _, h1, h2, _⟩ := iter_conserves_momentum ⟨100, 100⟩ 0.1
    (⟨[⟨40, 50⟩, ⟨60, 50⟩, ⟨10, 20⟩], [⟨1, 0⟩, ⟨0, 2⟩, ⟨0, 0⟩], [5, -5, 2], [1, 2, 3]⟩ :
      ParticleSystem ℝ) ⟨rfl, rfl, rfl⟩
    (fun m hm => by
      simp only [List.mem_cons, List.mem_singleton, List.not_mem_nil, or_false] at hm
      rcases hm with rfl | rfl | rfl <;> norm_num)
  exact ⟨ps', h1, h2⟩


/-! ## Self images -/

/-- The eight images of a particle exert no net force on the particle itself. -/
theorem self_image_sum (world : World) (p : vec2 ℝ) (q : ℝ) :
    ∑ o in Finset.range 8,
        ((forceVal Real.sqrt p q (image world (offsets.getD o (0, 0)) p) q).m_x,
         (forceVal Real.sqrt p q (image world (offsets.getD o (0, 0)) p) q).m_y) = 0 := by
  simp only [Finset.sum_range_succ, Finset.range_zero, Finset.sum_empty, zero_add, forceVal_x,
    forceVal_y, image]
  simp [offsets, forceK_neg_left, forceK_neg_right, forceK_zero]


/-- The net force on particle `i` as a sum over the other particles and over the
direct image and the eight shifted images of each of them. -/
theorem netForce_nine (ps : ParticleSystem ℝ) (world : World) (i : Nat)
    (hi : i < ps.m_aPositions.length) :
    netForce Real.sqrt ps world i =
      ∑ j in (Finset.range ps.m_aPositions.length).erase i,
        ∑ o in ({-1, 0, 1} : Finset ℤ) ×ˢ ({-1, 0, 1} : Finset ℤ),
          ((forceVal Real.sqrt (ps.posAt i) (ps.chargeAt i)
            ⟨(ps.posAt j).m_x + (o.1 : ℝ) * (world.m_width : ℝ),
             (ps.posAt j).m_y + (o.2 : ℝ) * (world.m_height : ℝ)⟩ (ps.chargeAt j)).m_x,
           (forceVal Real.sqrt (ps.posAt i) (ps.chargeAt i)
            ⟨(ps.posAt j).m_x + (o.1 : ℝ) * (world.m_width : ℝ),
             (ps.posAt j).m_y + (o.2 : ℝ) * (world.m_height : ℝ)⟩ (ps.chargeAt j)).m_y) := by
  obtain ⟨G, hG⟩ : ∃ G : ℤ × ℤ → Nat → ℝ × ℝ, G = fun o j =>
      ((forceVal Real.sqrt (ps.posAt i) (ps.chargeAt i)
        ⟨(ps.posAt j).m_x + (o.1 : ℝ) * (world.m_width : ℝ),
         (ps.posAt j).m_y + (o.2 : ℝ) * (world.m_height : ℝ)⟩ (ps.chargeAt j)).m_x,
       (forceVal Real.sqrt (ps.posAt i) (ps.chargeAt i)
        ⟨(ps.posAt j).m_x + (o.1 : ℝ) * (world.m_width : ℝ),
         (ps.posAt j).m_y + (o.2 : ℝ) * (world.m_height : ℝ)⟩ (ps.chargeAt j)).m_y) := ⟨_, rfl⟩
  have hpair : ∀ j, pairForce Real.sqrt ps i j = G (0, 0) j := by
    intro j; simp [hG, pairForce]
  have himg : ∀ o j, imageForce Real.sqrt ps world i o j = G (offsets.getD o (0, 0)) j := by
    intro o j; simp only [hG, imageForce, image, Int.cast_mul]
  have hself : ∑ o in Finset.range 8, G (offsets.getD o (0, 0)) i = 0 := by
    have := self_image_sum world (ps.posAt i) (ps.chargeAt i)
    simp only [image, Int.cast_mul] at this
    simpa only [hG] using this
  have hsplit : ∀ o : Nat, ∑ j in Finset.range ps.m_aPositions.length,
      G (offsets.getD o (0, 0)) j = G (offsets.getD o (0, 0)) i +
        ∑ j in (Finset.range ps.m_aPositions.length).erase i, G (offsets.getD o (0, 0)) j :=
    fun o => (Finset.add_sum_erase _ _ (by simpa using hi)).symm
  have hgoal : netForce Real.sqrt ps world i =
      ∑ j in (Finset.range ps.m_aPositions.length).erase i,
        ∑ o in ({-1, 0, 1} : Finset ℤ) ×ˢ ({-1, 0, 1} : Finset ℤ), G o j := by
    simp only [netForce, hpair, himg, hsplit, sum_nine_offsets, Finset.sum_add_distrib, hself,
      zero_add]
    rw [Finset.sum_comm]
  rw [hgoal, hG]


theorem getElem?_of_forceAt (aForces : List (Force ℝ)) (i : Nat) (hi : i < aForces.length)
    (x y : ℝ) (h : forceAt aForces i = (x, y)) : aForces[i]? = some ⟨x, y⟩ := by
  rw [forceAt_getElem aForces i hi] at h
  rw [List.getElem?_eq_getElem hi]
  obtain ⟨hx, hy⟩ := Prod.ext_iff.mp h
  simp only at hx hy
  rw [← hx, ← hy]

/-- C18: the image loop of `iter` does not skip `j = i`, but the eight images of a
particle exert no net force on it.  `getForce` never fails (its value is `gf`); for
every position `p`, charge `q` and world the sum over the eight non-zero offsets `o`
of `getForce (p, q, p + (o.1 * width, o.2 * height), q)` is the zero vector; and for
every particle system (charge vector as long as the position vector) the
accumulation loops of `iter` succeed and leave in `aForces[i]` the sum over all
`j ≠ i` and all nine offsets with components in `{-1, 0, 1}` of
`getForce (p_i, q_i, p_j + (o.1 * width, o.2 * height), q_j)`. -/
theorem iter_self_images_cancel :
    ∃ gf : vec2 ℝ → ℝ → vec2 ℝ → ℝ → Force ℝ,
      (∀ a ca b cb, getForce Real.sqrt a ca b cb = .ok (gf a ca b cb)) ∧
      (∀ (p : vec2 ℝ) (q : ℝ) (world : World),
        ∑ o in (({-1, 0, 1} : Finset ℤ) ×ˢ ({-1, 0, 1} : Finset ℤ)).erase (0, 0),
          (gf p q ⟨p.m_x + (o.1 : ℝ) * (world.m_width : ℝ),
            p.m_y + (o.2 : ℝ) * (world.m_height : ℝ)⟩ q).m_x = 0 ∧
        ∑ o in (({-1, 0, 1} : Finset ℤ) ×ˢ ({-1, 0, 1} : Finset ℤ)).erase (0, 0),
          (gf p q ⟨p.m_x + (o.1 : ℝ) * (world.m_width : ℝ),
            p.m_y + (o.2 : ℝ) * (world.m_height : ℝ)⟩ q).m_y = 0) ∧
      (∀ (world : World) (ps : ParticleSystem ℝ),
        ps.m_aCharges.length = ps.m_aPositions.length →
        ∃ aForces, iterForces Real.sqrt ps world = .ok aForces ∧
          aForces.length = ps.m_aPositions.length ∧
          ∀ i, i < ps.m_aPositions.length → aForces[i]? = some
            ⟨∑ j in (Finset.range ps.m_aPositions.length).erase i,
              ∑ o in ({-1, 0, 1} : Finset ℤ) ×ˢ ({-1, 0, 1} : Finset ℤ),
                (gf (ps.posAt i) (ps.chargeAt i)
                  ⟨(ps.posAt j).m_x + (o.1 : ℝ) * (world.m_width : ℝ),
                   (ps.posAt j).m_y + (o.2 : ℝ) * (world.m_height : ℝ)⟩ (ps.chargeAt j)).m_x,
             ∑ j in (Finset.range ps.m_aPositions.length).erase i,
              ∑ o in ({-1, 0, 1} : Finset ℤ) ×ˢ ({-1, 0, 1} : Finset ℤ),
                (gf (ps.posAt i) (ps.chargeAt i)
                  ⟨(ps.posAt j).m_x + (o.1 : ℝ) * (world.m_width : ℝ),
                   (ps.posAt j).m_y + (o.2 : ℝ) * (world.m_height : ℝ)⟩ (ps.chargeAt j)).m_y⟩) := by
  refine ⟨forceVal Real.sqrt, getForce_eq, fun p q world => ?_, fun world ps hq => ?_⟩
  · have h := self_image_sum world p q
    simp only [image, Int.cast_mul] at h
    have h1 := congrArg Prod.fst h
    have h2 := congrArg Prod.snd h
    rw [Prod.fst_sum] at h1
    rw [Prod.snd_sum] at h2
    constructor
    · rw [← sum_offsets]; exact h1
    · rw [← sum_offsets]; exact h2
  · obtain ⟨aForces, f1, f2, f3⟩ := iterForces_spec ps world hq
    refine ⟨aForces, f1, f2, fun i hi => ?_⟩
    apply getElem?_of_forceAt aForces i (by omega)
    rw [f3 i hi, netForce_nine ps world i hi]
    refine Prod.ext ?_ ?_
    · simp only [Prod.fst_sum]
    · simp only [Prod.snd_sum]

/-- C18, witness: the accumulation loops on the two-particle scenario of the
specification. -/
theorem iter_self_images_cancel_witness :
    ∃ aForces, iterForces Real.sqrt (symmetricPair : ParticleSystem ℝ) ⟨100, 100⟩ = .ok aForces ∧
      aForces.length = 2 := by
  obtain ⟨_, _, _, h⟩ := iter_self_images_cancel
  obtain ⟨aForces, h1, h2, _⟩ := h ⟨100, 100⟩ (symmetricPair : ParticleSystem ℝ) rfl
  exact ⟨aForces, h1, h2⟩


/-! ## Totality of the arithmetic -/

theorem bind_eq_ok {α β : Type} {x : Except Err α} {f : α → Except Err β} {b : β}
    (h : (x >>= f) = .ok b) : ∃ a, x = .ok a ∧ f a = .ok b := by
  cases x with
  | error e => cases h
  | ok a => exact ⟨a, rfl, h⟩

theorem vget_eq_ok {α : Type} {xs : List α} {i : Nat} {a : α} (h : vget xs i = .ok a) :
    xs[i]? = some a := by
  unfold vget at h
  split at h
  · rename_i b hb
    rw [hb, Except.ok.inj h]
  · cases h

theorem vset_eq_ok {α : Type} {xs ys : List α} {i : Nat} {a : α} (h : vset xs i a = .ok ys) :
    ys = xs.set i a := by
  unfold vset at h
  split at h
  · exact (Except.ok.inj h).symm
  · cases h

theorem arithOk_ok {α : Type} (a : α) : ArithOk (Except.ok a : Except Err α) := by
  intro e h; cases h

theorem arithOk_bind {α β : Type} {x : Except Err α} {f : α → Except Err β} (hx : ArithOk x)
    (hf : ∀ a, x = .ok a → ArithOk (f a)) : ArithOk (x >>= f) := by
  cases x with
  | error e => exact fun e' h => hx e' (by simpa using h)
  | ok a => exact hf a rfl

theorem arithOk_vget {α : Type} (xs : List α) (i : Nat) : ArithOk (vget xs i) := by
  intro e h
  unfold vget at h
  split at h
  · cases h
  · exact (Except.error.inj h).symm

theorem arithOk_vset {α : Type} (xs : List α) (i : Nat) (a : α) : ArithOk (vset xs i a) := by
  intro e h
  unfold vset at h
  split at h
  · cases h
  · exact (Except.error.inj h).symm

theorem arithOk_toIndex (k : Int) : ArithOk (toIndex k) := by
  intro e h
  unfold toIndex at h
  split at h
  · cases h
  · exact (Except.error.inj h).symm

theorem arithOk_forLoop {σ : Type} (body : Nat → σ → Except Err σ) (P : σ → Prop) :
    ∀ (cnt lo : Nat) (s : σ), P s →
      (∀ i s, lo ≤ i → i < lo + cnt → P s →
        ArithOk (body i s) ∧ ∀ s', body i s = .ok s' → P s') →
      ArithOk (forLoop body lo cnt s) := by
  intro cnt
  induction cnt with
  | zero => intro lo s _ _; exact arithOk_ok s
  | succ cnt ih =>
    intro lo s hP hstep
    obtain ⟨h1, h2⟩ := hstep lo s le_rfl (by omega) hP
    exact arithOk_bind h1 (fun s' hs' => ih (lo + 1) s' (h2 s' hs')
      (fun i t hi hlt hPt => hstep i t (by omega) (by omega) hPt))

theorem arithOk_forRange {σ : Type} (body : Nat → σ → Except Err σ) (P : σ → Prop)
    (lo hi : Nat) (s : σ) (hP : P s)
    (hstep : ∀ i s, lo ≤ i → i < hi → P s →
      ArithOk (body i s) ∧ ∀ s', body i s = .ok s' → P s') :
    ArithOk (forRange lo hi body s) :=
  arithOk_forLoop body P (hi - lo) lo s hP
    (fun i t h1 h2 hPt => hstep i t h1 (by omega) hPt)

/-- A loop whose body has no arithmetic error has none. -/
theorem arithOk_forRange_of_body {σ : Type} (body : Nat → σ → Except Err σ) (lo hi : Nat)
    (s : σ) (hbody : ∀ i s, lo ≤ i → i < hi → ArithOk (body i s)) :
    ArithOk (forRange lo hi body s) :=
  arithOk_forRange body (fun _ => True) lo hi s trivial
    (fun i t h1 h2 _ => ⟨hbody i t h1 h2, fun _ _ => trivial⟩)

theorem arithOk_getForce (pos1 : vec2 ℝ) (c1 : ℝ) (pos2 : vec2 ℝ) (c2 : ℝ) :
    ArithOk (getForce Real.sqrt pos1 c1 pos2 c2) := by
  rw [getForce_eq]; exact arithOk_ok _

theorem arithOk_getPotential (pos parPos : vec2 ℝ) (c : ℝ) :
    ArithOk (getPotential Real.sqrt pos parPos c) := by
  rw [getPotential_eq]; exact arithOk_ok _

theorem arithOk_iterPairBody (ps : ParticleSystem ℝ) (par1 : vec2 ℝ) (i j : Nat)
    (s : List (Force ℝ)) : ArithOk (iterPairBody Real.sqrt ps par1 i j s) := by
  simp only [iterPairBody]
  repeat' first
    | exact arithOk_vget _ _
    | exact arithOk_vset _ _ _
    | exact arithOk_getForce _ _ _ _
    | refine arithOk_bind ?_ (fun _ _ => ?_)

theorem arithOk_iterImageBody (ps : ParticleSystem ℝ) (world : World) (par1 : vec2 ℝ)
    (i o j : Nat) (s : List (Force ℝ)) :
    ArithOk (iterImageBody Real.sqrt ps world par1 i o j s) := by
  simp only [iterImageBody]
  repeat' first
    | exact arithOk_vget _ _
    | exact arithOk_vset _ _ _
    | exact arithOk_getForce _ _ _ _
    | refine arithOk_bind ?_ (fun _ _ => ?_)

theorem arithOk_iterForces (ps : ParticleSystem ℝ) (world : World) :
    ArithOk (iterForces Real.sqrt ps world) := by
  simp only [iterForces]
  refine arithOk_forRange_of_body _ _ _ _ (fun i s _ _ => ?_)
  refine arithOk_bind (arithOk_vget _ _) (fun par1 _ => ?_)
  refine arithOk_bind (arithOk_forRange_of_body _ _ _ _
    (fun j t _ _ => arithOk_iterPairBody ps par1 i j t)) (fun s1 _ => ?_)
  exact arithOk_forRange_of_body _ _ _ _ (fun o t _ _ =>
    arithOk_forRange_of_body _ _ _ _ (fun j u _ _ => arithOk_iterImageBody ps world par1 i o j u))


theorem arithOk_fdiv {a b : ℝ} (h : b ≠ 0) : ArithOk (fdiv a b) := by
  rw [fdiv_ok h]; exact arithOk_ok _

theorem arithOk_imod {a b : Int} (h : b ≠ 0) : ArithOk (imod a b) := by
  rw [imod_ok h]; exact arithOk_ok _

theorem forLoop_preserves {σ : Type} (body : Nat → σ → Except Err σ) (P : σ → Prop)
    (hbody : ∀ i s s', P s → body i s = .ok s' → P s') :
    ∀ (cnt lo : Nat) (s s' : σ), P s → forLoop body lo cnt s = .ok s' → P s' := by
  intro cnt
  induction cnt with
  | zero =>
    intro lo s s' hP h
    rw [← Except.ok.inj h]; exact hP
  | succ cnt ih =>
    intro lo s s' hP h
    obtain ⟨s1, h1, h2⟩ := bind_eq_ok h
    exact ih (lo + 1) s1 s' (hbody lo s s1 hP h1) h2

/-- A successful run of the body of the update loop of `iter` changes neither the
lengths of the four vectors nor the charges and masses. -/
theorem iterUpdate_step_preserves (aForces : List (Force ℝ)) (dt : ℝ) (i : Nat)
    (s s' : ParticleSystem ℝ)
    (h : (do
      let f ← vget aForces i
      let m ← vget s.m_aMasses i
      let v ← vget s.m_aVelocities i
      let ax ← fdiv f.m_x m
      let ay ← fdiv f.m_y m
      let v : vec2 ℝ := ⟨v.m_x + ax * dt, v.m_y + ay * dt⟩
      let aVel ← vset s.m_aVelocities i v
      let p ← vget s.m_aPositions i
      let aPos ← vset s.m_aPositions i ⟨p.m_x + v.m_x * dt, p.m_y + v.m_y * dt⟩
      pure { s with m_aPositions := aPos, m_aVelocities := aVel } :
        Except Err (ParticleSystem ℝ)) = .ok s') :
    s'.m_aCharges = s.m_aCharges ∧ s'.m_aMasses = s.m_aMasses ∧
      s'.m_aPositions.length = s.m_aPositions.length ∧
      s'.m_aVelocities.length = s.m_aVelocities.length := by
  obtain ⟨f, -, h⟩ := bind_eq_ok h
  obtain ⟨m, -, h⟩ := bind_eq_ok h
  obtain ⟨v, -, h⟩ := bind_eq_ok h
  obtain ⟨ax, -, h⟩ := bind_eq_ok h
  obtain ⟨ay, -, h⟩ := bind_eq_ok h
  obtain ⟨aVel, hVel, h⟩ := bind_eq_ok h
  obtain ⟨p, -, h⟩ := bind_eq_ok h
  obtain ⟨aPos, hPos, h⟩ := bind_eq_ok h
  rw [← Except.ok.inj h, vset_eq_ok hVel, vset_eq_ok hPos]
  simp

theorem iterUpdate_preserves (aForces : List (Force ℝ)) (ps ps' : ParticleSystem ℝ) (dt : ℝ)
    (h : iterUpdate aForces ps dt = .ok ps') :
    ps'.m_aCharges = ps.m_aCharges ∧ ps'.m_aMasses = ps.m_aMasses ∧
      ps'.m_aPositions.length = ps.m_aPositions.length ∧
      ps'.m_aVelocities.length = ps.m_aVelocities.length :=
  forLoop_preserves _
    (fun s => s.m_aCharges = ps.m_aCharges ∧ s.m_aMasses = ps.m_aMasses ∧
      s.m_aPositions.length = ps.m_aPositions.length ∧
      s.m_aVelocities.length = ps.m_aVelocities.length)
    (fun i s s' hP hs => by
      obtain ⟨h1, h2, h3, h4⟩ := iterUpdate_step_preserves aForces dt i s s' hs
      exact ⟨h1.trans hP.1, h2.trans hP.2.1, h3.trans hP.2.2.1, h4.trans hP.2.2.2⟩)
    _ _ ps ps' ⟨rfl, rfl, rfl, rfl⟩ h

theorem arithOk_iterUpdate (aForces : List (Force ℝ)) (ps : ParticleSystem ℝ) (dt : ℝ)
    (hpos : ∀ m ∈ ps.m_aMasses, 0 < m) : ArithOk (iterUpdate aForces ps dt) := by
  refine arithOk_forRange _ (fun s => s.m_aMasses = ps.m_aMasses) _ _ ps rfl
    (fun i s _ _ hP => ⟨?_, fun s' hs' =>
      ((iterUpdate_step_preserves aForces dt i s s' hs').2.1).trans hP⟩)
  refine arithOk_bind (arithOk_vget _ _) (fun f _ => ?_)
  refine arithOk_bind (arithOk_vget _ _) (fun m hm => ?_)
  have hm0 : m ≠ 0 := by
    have := List.getElem?_mem (vget_eq_ok hm)
    rw [hP] at this
    exact (hpos m this).ne'
  repeat' first
    | exact arithOk_vget _ _
    | exact arithOk_vset _ _ _
    | exact arithOk_fdiv hm0
    | exact arithOk_ok _
    | refine arithOk_bind ?_ (fun _ _ => ?_)

theorem arithOk_iter (ps : ParticleSystem ℝ) (world : World) (dt : ℝ)
    (hpos : ∀ m ∈ ps.m_aMasses, 0 < m) : ArithOk (iter Real.sqrt ps world dt) :=
  arithOk_bind (arithOk_iterForces ps world) (fun aForces _ => arithOk_iterUpdate aForces ps dt hpos)

theorem arithOk_cellPotential (world : World) (ps : ParticleSystem ℝ) (i j : Nat) :
    ArithOk (cellPotential Real.sqrt world ps i j) := by
  simp only [cellPotential]
  refine arithOk_bind (arithOk_forRange_of_body _ _ _ _ (fun p c _ _ => ?_)) (fun c1 _ =>
    arithOk_forRange_of_body _ _ _ _ (fun o c _ _ =>
      arithOk_forRange_of_body _ _ _ _ (fun p c _ _ => ?_)))
  all_goals
    repeat' first
      | exact arithOk_vget _ _
      | exact arithOk_getPotential _ _ _
      | exact arithOk_ok _
      | refine arithOk_bind ?_ (fun _ _ => ?_)

theorem arithOk_fcellAt (aFloatCells : List ℝ) (width height : Int) (hw : width ≠ 0)
    (hh : height ≠ 0) (i j : Int) : ArithOk (fcellAt aFloatCells width height i j) := by
  simp only [fcellAt]
  repeat' first
    | exact arithOk_vget _ _
    | exact arithOk_toIndex _
    | exact arithOk_imod hw
    | exact arithOk_imod hh
    | refine arithOk_bind ?_ (fun _ _ => ?_)

theorem arithOk_fillCells (aCells : List cell) (world : World) (ps : ParticleSystem ℝ) :
    ArithOk (fillCells Real.sqrt aCells world ps) := by
  simp only [fillCells]
  refine arithOk_bind ?_ (fun pot _ => ?_)
  · simp only [fillCellsPotential]
    refine arithOk_forRange_of_body _ _ _ _ (fun i s _ _ =>
      arithOk_forRange_of_body _ _ _ _ (fun j t _ _ => ?_))
    repeat' first
      | exact arithOk_vget _ _
      | exact arithOk_vset _ _ _
      | exact arithOk_toIndex _
      | exact arithOk_cellPotential _ _ _ _
      | refine arithOk_bind ?_ (fun _ _ => ?_)
  · simp only [fillCellsBoundary]
    refine arithOk_forRange_of_body _ _ _ _ (fun i s _ hi =>
      arithOk_forRange_of_body _ _ _ _ (fun j t _ hj => ?_))
    have hw : world.m_width ≠ 0 := by omega
    have hh : world.m_height ≠ 0 := by omega
    repeat' first
      | exact arithOk_fcellAt _ _ _ hw hh _ _
      | exact arithOk_vset _ _ _
      | exact arithOk_toIndex _
      | refine arithOk_bind ?_ (fun _ _ => ?_)


/-- C15: all arithmetic in the core is total.  For all positions and charges the
divisor `dist2` of `getForce` is at least 1 (every division by it passes its guard) and
`getForce` succeeds; the divisor `dist` of `getPotential` is at least `1e-6` and
`getPotential` succeeds.  When all masses are positive, `iter` never ends in a
division or square-root error (its only possible error is an access outside a
vector) and succeeds when the four vectors have the same length.  `fillCells` never
ends in a division or square-root error either, and succeeds for `width, height > 0`,
a cell buffer of size `width * height` and a charge vector as long as the position
vector. -/
theorem arithmetic_total :
    (∀ (pos1 pos2 : vec2 ℝ) (c1 c2 : ℝ),
      1 ≤ (pos1.m_x - pos2.m_x) * (pos1.m_x - pos2.m_x)
          + (pos1.m_y - pos2.m_y) * (pos1.m_y - pos2.m_y) + 1 ∧
      (∀ a : ℝ, fdiv a ((pos1.m_x - pos2.m_x) * (pos1.m_x - pos2.m_x)
          + (pos1.m_y - pos2.m_y) * (pos1.m_y - pos2.m_y) + 1) =
        .ok (a / ((pos1.m_x - pos2.m_x) * (pos1.m_x - pos2.m_x)
          + (pos1.m_y - pos2.m_y) * (pos1.m_y - pos2.m_y) + 1))) ∧
      ∃ f, getForce Real.sqrt pos1 c1 pos2 c2 = .ok f) ∧
    (∀ (pos parPos : vec2 ℝ) (c : ℝ),
      1e-6 ≤ Real.sqrt ((parPos.m_x - pos.m_x) * (parPos.m_x - pos.m_x)
          + (parPos.m_y - pos.m_y) * (parPos.m_y - pos.m_y)) + 1e-6 ∧
      getPotential Real.sqrt pos parPos c =
        .ok (c / (Real.sqrt ((parPos.m_x - pos.m_x) * (parPos.m_x - pos.m_x)
          + (parPos.m_y - pos.m_y) * (parPos.m_y - pos.m_y)) + 1e-6))) ∧
    (∀ (ps : ParticleSystem ℝ) (world : World) (dt : ℝ), (∀ m ∈ ps.m_aMasses, 0 < m) →
      (∀ e, iter Real.sqrt ps world dt = .error e → e = .outOfBounds) ∧
      (ps.sameLength → ∃ ps', iter Real.sqrt ps world dt = .ok ps')) ∧
    (∀ (aCells : List cell) (world : World) (ps : ParticleSystem ℝ),
      (∀ e, fillCells Real.sqrt aCells world ps = .error e → e = .outOfBounds) ∧
      (0 < world.m_width → 0 < world.m_height →
        ps.m_aCharges.length = ps.m_aPositions.length →
        aCells.length = (world.m_width * world.m_height).toNat →
        ∃ out, fillCells Real.sqrt aCells world ps = .ok out)) := by
  refine ⟨fun pos1 pos2 c1 c2 => ?_, fun pos parPos c => ?_, fun ps world dt hpos => ?_,
    fun aCells world ps => ?_⟩
  · have h := dist2_pos (pos1.m_x - pos2.m_x) (pos1.m_y - pos2.m_y)
    refine ⟨?_, fun a => fdiv_ok h.ne', _, getForce_eq pos1 c1 pos2 c2⟩
    nlinarith [mul_self_nonneg (pos1.m_x - pos2.m_x), mul_self_nonneg (pos1.m_y - pos2.m_y)]
  · constructor
    · have := Real.sqrt_nonneg ((parPos.m_x - pos.m_x) * (parPos.m_x - pos.m_x)
        + (parPos.m_y - pos.m_y) * (parPos.m_y - pos.m_y))
      linarith
    · rw [getPotential_eq]
      have e : (1.0e-6 : ℝ) = 1e-6 := by norm_num
      simp only [potentialVal, e]
  · refine ⟨arithOk_iter ps world dt hpos, fun hsame => ?_⟩
    obtain ⟨ps', h, _⟩ := iter_spec world dt ps hsame.1 hsame.2.1 hsame.2.2 hpos
    exact ⟨ps', h⟩
  · exact ⟨arithOk_fillCells aCells world ps,
      fun hw hh hq hcells => fillCells_ok world ps aCells hw hh hq hcells⟩

/-- C15, witness: `iter` on the two-particle scenario of the specification. -/
theorem arithmetic_total_witness :
    (∀ e, iter Real.sqrt (symmetricPair : ParticleSystem ℝ) ⟨100, 100⟩ 0.1 = .error e →
      e = .outOfBounds) ∧
    ∃ ps', iter Real.sqrt (symmetricPair : ParticleSystem ℝ) ⟨100, 100⟩ 0.1 = .ok ps' := by
  obtain ⟨h1, h2⟩ := arithmetic_total.2.2.1 (symmetricPair : ParticleSystem ℝ) ⟨100, 100⟩ 0.1
    (by simp [symmetricPair])
  exact ⟨h1, h2 ⟨rfl, rfl, rfl⟩⟩

/-! ## The invariant of the particle store -/

/-- C13: the four vectors of the particle store have the same length, as an
invariant.  It holds for the empty system; `addParticle` preserves it and appends
the given position, the velocity `(0, 0)`, the given charge and the given mass, so
that every vector grows by one; every successful call of `iter` preserves it and the
particle count, and `iter` succeeds when the masses are positive; `regularize`
succeeds and preserves it and the particle count. -/
theorem sameLength_invariant :
    (⟨[], [], [], []⟩ : ParticleSystem ℝ).sameLength ∧
    (∀ (ps : ParticleSystem ℝ) (pos : vec2 ℝ) (mass charge : ℝ), ps.sameLength →
      (ps.addParticle pos mass charge).sameLength ∧
      (ps.addParticle pos mass charge).m_aPositions = ps.m_aPositions ++ [pos] ∧
      (ps.addParticle pos mass charge).m_aVelocities = ps.m_aVelocities ++ [⟨0, 0⟩] ∧
      (ps.addParticle pos mass charge).m_aCharges = ps.m_aCharges ++ [charge] ∧
      (ps.addParticle pos mass charge).m_aMasses = ps.m_aMasses ++ [mass] ∧
      (ps.addParticle pos mass charge).m_aPositions.length = ps.m_aPositions.length + 1) ∧
    (∀ (ps : ParticleSystem ℝ) (world : World) (dt : ℝ), ps.sameLength →
      (∀ ps', iter Real.sqrt ps world dt = .ok ps' →
        ps'.sameLength ∧ ps'.m_aPositions.length = ps.m_aPositions.length) ∧
      ((∀ m ∈ ps.m_aMasses, 0 < m) → ∃ ps', iter Real.sqrt ps world dt = .ok ps')) ∧
    (∀ (ps : ParticleSystem ℝ) (world : World), ps.sameLength →
      ∃ ps', regularize ps world = .ok ps' ∧ ps'.sameLength ∧
        ps'.m_aPositions.length = ps.m_aPositions.length) := by
  refine ⟨⟨rfl, rfl, rfl⟩, fun ps pos mass charge hs => ?_, fun ps world dt hs => ?_,
    fun ps world hs => ?_⟩
  · obtain ⟨h1, h2, h3⟩ := hs
    have e0 : (0.0 : ℝ) = 0 := by norm_num
    refine ⟨⟨?_, ?_, ?_⟩, rfl, ?_, rfl, rfl, ?_⟩ <;>
      simp [ParticleSystem.addParticle, h1, h2, h3, e0]
  · obtain ⟨h1, h2, h3⟩ := hs
    constructor
    · intro ps' h
      obtain ⟨aForces, -, hu⟩ := bind_eq_ok h
      obtain ⟨g1, g2, g3, g4⟩ := iterUpdate_preserves aForces ps ps' dt hu
      exact ⟨⟨by rw [g4, g3, h1], by rw [g1, g3, h2], by rw [g2, g3, h3]⟩, g3⟩
    · intro hpos
      obtain ⟨ps', h, _⟩ := iter_spec world dt ps h1 h2 h3 hpos
      exact ⟨ps', h⟩
  · obtain ⟨h1, h2, h3⟩ := hs
    obtain ⟨ps', g, g1, g2, g3, g4, _⟩ := regularize_spec world ps h1
    exact ⟨ps', g, ⟨by rw [g4, g3, h1], by rw [g1, g3, h2], by rw [g2, g3, h3]⟩, g3⟩

/-- C13, witness: `addParticle` on the two-particle scenario of the specification,
then `regularize`. -/
theorem sameLength_invariant_witness :
    ((symmetricPair : ParticleSystem ℝ).addParticle ⟨1, 2⟩ 1 (-5)).sameLength ∧
    ∃ ps', regularize ((symmetricPair : ParticleSystem ℝ).addParticle ⟨1, 2⟩ 1 (-5)) ⟨100, 100⟩
        = .ok ps' ∧ ps'.sameLength ∧ ps'.m_aPositions.length = 3 := by
  have h := (sameLength_invariant.2.1 (symmetricPair : ParticleSystem ℝ) ⟨1, 2⟩ 1 (-5)
    ⟨rfl, rfl, rfl⟩).1
  exact ⟨h, sameLength_invariant.2.2.2 _ ⟨100, 100⟩ h⟩

end ASCIIequipotential
